import Mathlib

/-!
The archive reader (`dump`) and writer (`pack`) of cnvltool.

A shallow embedding of `src/cnvltool.c`.

Conventions of the embedding

* A byte (`unsigned char`, `char` as stored) is a `Fin 256`; a file or a stream is a
  `List Byte`.  `unsigned int` values are natural numbers reduced modulo `2^32`.
* The natural target is assumed: `int`/`unsigned int` are 32 bits wide, `long`, `off_t`
  and `size_t` are 64 bits wide, multi-byte integers are little-endian, and the two
  structs have no padding (`sizeof (struct HEADER) = 0x34`,
  `sizeof (struct FT_ENTRY) = 0x30`).  Whether plain `char` is signed is left open: it is
  the field `signedChar` of the environment.
* `malloc` and `realloc` are assumed to succeed, and `int` counters are assumed not to
  reach `2^31`.
* Memory that the program reads before writing it (a `fread` that came up short into a
  fresh buffer) holds unspecified bytes; they are supplied by the environment.
* A read outside an allocated block finds the bytes that lie there (the memory after the
  file table is taken to be readable); they too are supplied by the environment, and the
  run goes on with them.  A store outside a block that puts
  back the byte it found (`buf[i] ^= 0`) changes nothing.  A store that changes a byte
  beyond what `malloc` handed out damages the heap: the allocator ends the process at its
  next check, and the embedding ends the run there with a `Fault`.
-/

namespace Cnvltool

/-- One byte of a stream or of memory. -/
abbrev Byte := Fin 256

/-- The byte holding the low eight bits of `n`. -/
def byteOf (n : Nat) : Byte := ⟨n % 256, Nat.mod_lt _ (by decide)⟩

/-- The number of values of an `unsigned int`. -/
def U32 : Nat := 4294967296

/-- The four bytes of an `unsigned int` in memory, low byte first. -/
def le32 (n : Nat) : List Byte :=
  [byteOf n, byteOf (n / 256), byteOf (n / 65536), byteOf (n / 16777216)]

/-- The `unsigned int` stored in the four bytes of `mem` starting at `off`. -/
def rd32 (mem : List Byte) (off : Nat) : Nat :=
  (mem.getD off 0).val + 256 * (mem.getD (off + 1) 0).val
    + 65536 * (mem.getD (off + 2) 0).val + 16777216 * (mem.getD (off + 3) 0).val

/-- The record `struct HEADER`: `magic[0x2B]`, `key`, `fcount`, `ft_pos`. -/
structure HEADER where
  magic : List Byte
  key : Byte
  fcount : Nat
  ft_pos : Nat
deriving DecidableEq

/-- The record `struct FT_ENTRY`: `fname[0x27]`, `encofs`, `fpos`, `fsize`. -/
structure FT_ENTRY where
  fname : List Byte
  encofs : Byte
  fpos : Nat
  fsize : Nat
deriving DecidableEq

/-- Exactly `n` bytes: `bs` cut to `n` bytes or extended with zero bytes. -/
def padTo (n : Nat) (bs : List Byte) : List Byte :=
  bs.take n ++ List.replicate (n - bs.length) 0

/-- The `0x34` bytes of a `struct HEADER` in memory. -/
def encodeHeader (h : HEADER) : List Byte :=
  padTo 0x2B h.magic ++ [h.key] ++ le32 h.fcount ++ le32 h.ft_pos

/-- The `struct HEADER` held by the first `0x34` bytes of `mem`. -/
def decodeHeader (mem : List Byte) : HEADER :=
  { magic := padTo 0x2B mem
    key := mem.getD 0x2B 0
    fcount := rd32 mem 0x2C
    ft_pos := rd32 mem 0x30 }

/-- The `0x30` bytes of a `struct FT_ENTRY` in memory. -/
def encodeEntry (e : FT_ENTRY) : List Byte :=
  padTo 0x27 e.fname ++ [e.encofs] ++ le32 e.fpos ++ le32 e.fsize

/-- The `struct FT_ENTRY` held by the first `0x30` bytes of `mem`. -/
def decodeEntry (mem : List Byte) : FT_ENTRY :=
  { fname := padTo 0x27 mem
    encofs := mem.getD 0x27 0
    fpos := rd32 mem 0x28
    fsize := rd32 mem 0x2C }

/-- The bytes of an array of `struct FT_ENTRY`. -/
def encodeTable : List FT_ENTRY → List Byte
  | [] => []
  | e :: es => encodeEntry e ++ encodeTable es

/-- The array of `n` records `struct FT_ENTRY` held by `mem`. -/
def decodeTable : Nat → List Byte → List FT_ENTRY
  | 0, _ => []
  | n + 1, mem => decodeEntry mem :: decodeTable n (mem.drop 0x30)

/-- The call `fread(buf, n, 1, f)` (or `fread(buf, size, count, f)` with `n = size * count`)
on a stream `f` positioned at `pos`, into a buffer whose previous contents are `old`: the
bytes the stream still holds, at most `n` of them, land at the front of the buffer, and
the rest of its `n` bytes stay as they were.  The return value of `fread` is never looked
at by the program, so it is not part of the model. -/
def fread (old : Nat → Byte) (n : Nat) (f : List Byte) (pos : Nat) : List Byte :=
  let got := (f.drop pos).take n
  got ++ (List.range' got.length (n - got.length)).map old

/-- The value of a `char` holding byte `b` after promotion to `int`. -/
def charToInt (signedChar : Bool) (b : Byte) : Int :=
  if signedChar && decide (128 ≤ b.val) then (b.val : Int) - 256 else (b.val : Int)

/-- The statement `x -= c` for `unsigned int x` and `char c`. -/
def subChar (signedChar : Bool) (x : Nat) (c : Byte) : Nat :=
  (((x : Int) - charToInt signedChar c) % (U32 : Int)).toNat

/-- Lines 83-84 of `dump`: `ftable[i].fpos -= ftable[i].encofs;` and
`ftable[i].fsize -= ftable[i].encofs;`. -/
def fixEntry (signedChar : Bool) (e : FT_ENTRY) : FT_ENTRY :=
  { e with fpos := subChar signedChar e.fpos e.encofs
           fsize := subChar signedChar e.fsize e.encofs }

/-- The statement `buf[i] ^= head.key` on one byte. -/
def xorByte (b key : Byte) : Byte := byteOf (b.val ^^^ key.val)

/-- The statement `buf[i] ^= head.key` of line 97 on the buffer `buf`.  When `i` is not
below the size of `buf` the byte touched lies outside the buffer, whose own bytes stay as
they are. -/
def xorAt (key : Byte) (buf : List Byte) (i : Nat) : List Byte :=
  buf.set i (xorByte (buf.getD i 0) key)

/-- Line 97 of `dump` once its counter `i` has left the table: `past i` is the value found
in the memory after the table where `ftable[i].fsize` would be.  It is an `unsigned int`,
so the test fails at `i = 2^32 - 1` at the latest and `2^32 - i` rounds of `fuel` are
enough.  The result is the buffer and the counter at the end of the loop. -/
def xorPast (key : Byte) (past : Nat → Nat) : Nat → Nat → List Byte → List Byte × Nat
  | 0, i, buf => (buf, i)
  | fuel + 1, i, buf =>
    if i < past i % U32 then xorPast key past fuel (i + 1) (xorAt key buf i) else (buf, i)

/-- Line 97 of `dump`, `for (int i=0; i<ftable[i].fsize; i++) buf[i] ^= head.key;`, started
at counter `i` with `rest` the entries `ftable[i], ftable[i+1], ...` of the table.  The
counter declared in the `for` hides the entry index of the enclosing loop, so the bound
tested before round `i` is the size field of table entry `i`, and beyond the last entry it
is whatever the memory after the table holds.  The result is the buffer and the counter at
the end of the loop, which is the number of rounds when the loop starts at `0`. -/
def xorRun (key : Byte) (past : Nat → Nat) :
    List FT_ENTRY → Nat → List Byte → List Byte × Nat
  | [], i, buf => xorPast key past (U32 - i) i buf
  | e :: rest, i, buf =>
    if i < e.fsize then xorRun key past rest (i + 1) (xorAt key buf i) else (buf, i)

/-- An access of line 97 outside an allocated block. -/
inductive Fault where
  /-- `ftable[i]` read with `i` not below `fcount`. -/
  | tableIndex (i : Nat)
  /-- `buf[i]` accessed with `i` outside the block of `buf`. -/
  | bufIndex (i : Nat)
deriving DecidableEq

deriving instance DecidableEq for Except

/-- Line 97 of `dump` with every access checked against the table of `fcount` entries and
the buffer of `fsize` bytes: the arguments are those of `xorRun`, and the first access
outside the table or the buffer is reported instead of being made.  On a run that stays
inside both, the buffer is the one `xorRun` gives. -/
def xorFrom (key : Byte) : List FT_ENTRY → Nat → List Byte → Except Fault (List Byte)
  | [], i, _ => .error (.tableIndex i)
  | e :: rest, i, buf =>
    if i < e.fsize then
      if i < buf.length then xorFrom key rest (i + 1) (buf.set i (xorByte (buf.getD i 0) key))
      else .error (.bufIndex i)
    else .ok buf

/-- The checked loop `xorFrom` from counter `0`, with the file table as it stands. -/
def xorLoop (key : Byte) (ftable : List FT_ENTRY) (buf : List Byte) : Except Fault (List Byte) :=
  xorFrom key ftable 0 buf

/-- The name `fopen(ftable[i].fname, "wb")` reads: the bytes from the start of the name
field of entry `i`, here `e1`, up to the first zero byte.  When the 39 bytes of the field
hold none, the string runs on through `encofs`, `fpos` and `fsize` of the entry, through
the entries `todo` that follow it in the table, and into the memory `after` the table. -/
def nameAt (e1 : FT_ENTRY) (todo : List FT_ENTRY) (after : List Byte) : List Byte :=
  (encodeEntry e1 ++ encodeTable todo ++ after).takeWhile (fun b => b != 0)

/-- What `dump` runs in: the platform, the bytes found in memory it did not write, and the
answers of the file system. -/
structure Env where
  /-- Plain `char` is a signed type. -/
  signedChar : Bool
  /-- Previous contents of the variable `head`. -/
  oldHead : Nat → Byte
  /-- Previous contents of the block allocated for `ftable`. -/
  oldTable : Nat → Byte
  /-- Previous contents of the block allocated for `buf` of entry `i`. -/
  oldBuf : Nat → Nat → Byte
  /-- While entry `i` is extracted, the value found in the memory after the table where
  `ftable[j].fsize` would be, for `j` not below `fcount`. -/
  pastSize : Nat → Nat → Nat
  /-- While the name of entry `i` is read, the bytes found in the memory after the table,
  up to their first zero byte. -/
  pastName : Nat → List Byte
  /-- The number of bytes that follow the `n` bytes asked of `malloc(n)` and can be changed
  without damage to the heap: the bytes by which `malloc` rounds the block up. -/
  slack : Nat → Nat
  /-- The call `mkdir(dir, 0777)` fails with an error other than `EEXIST`. -/
  mkdirFails : Bool
  /-- The call `chdir(dir)` fails. -/
  chdirFails : Bool
  /-- The call `fopen(name, "wb")` in the output directory succeeds. -/
  canOpen : List Byte → Bool

/-- How a run of `dump` ended. -/
inductive DumpStatus where
  /-- The loop over the table ran to its end. -/
  | done
  /-- The archive could not be opened. -/
  | archiveOpenError
  /-- The output directory could not be created or entered. -/
  | directoryError
  /-- The output file of entry `i` could not be opened. -/
  | fileOpenError (i : Nat)
  /-- While entry `i` was extracted, line 97 changed bytes beyond the block of `buf`; the
  process is ended by the allocator before the file of entry `i` receives its bytes. -/
  | fault (i : Nat) (f : Fault)
deriving DecidableEq

/-- The outcome of `dump`: how it ended, and the files it opened for writing, in order,
each with the bytes written to it. -/
structure DumpResult where
  status : DumpStatus
  files : List (List Byte × List Byte)
deriving DecidableEq

/-- Lines 81-102 of `dump`, the loop over the table.  The table `ftable` is `fixed ++ todo`:
`fixed` holds the entries `0 .. i-1`, already rewritten by lines 83-84, `todo` holds the
entries `i ..` as read from the archive, and `i = fixed.length`.  `out` lists the files
written so far.  When the key is not `0` and line 97 makes more rounds than the block of
`buf` has bytes, it changes bytes beyond the block: the heap is damaged and the run ends
there, with the file of entry `i` created and still empty. -/
def dumpLoop (env : Env) (f : List Byte) (key : Byte) :
    List FT_ENTRY → List FT_ENTRY → List (List Byte × List Byte) → DumpResult
  | _, [], out => ⟨.done, out⟩
  | fixed, e :: todo, out =>
    let i := fixed.length
    let e1 := fixEntry env.signedChar e
    let ftable := fixed ++ e1 :: todo
    let name := nameAt e1 todo (env.pastName i)
    if env.canOpen name then
      let buf := fread (env.oldBuf i) e1.fsize f e1.fpos
      let run := xorRun key (env.pastSize i) ftable 0 buf
      let room := buf.length + env.slack buf.length
      if key ≠ 0 ∧ room < run.2 then ⟨.fault i (.bufIndex room), out ++ [(name, [])]⟩
      else dumpLoop env f key (fixed ++ [e1]) todo (out ++ [(name, run.1)])
    else ⟨.fileOpenError i, out⟩

/-- The header `dump` works with: `fread(&head, sizeof(struct HEADER), 1, input_f)`. -/
def dumpHeader (env : Env) (f : List Byte) : HEADER :=
  decodeHeader (fread env.oldHead 0x34 f 0)

/-- The file table `dump` works with: `fseek(input_f, head.ft_pos, SEEK_SET)` followed by
`fread(ftable, sizeof(struct FT_ENTRY), head.fcount, input_f)`. -/
def dumpTable (env : Env) (f : List Byte) : List FT_ENTRY :=
  let head := dumpHeader env f
  decodeTable head.fcount (fread env.oldTable (0x30 * head.fcount) f head.ft_pos)

/-- The function `dump`, on the contents `ifile` of the archive (`none` when it cannot be
opened). -/
def dump (env : Env) (ifile : Option (List Byte)) : DumpResult :=
  match ifile with
  | none => ⟨.archiveOpenError, []⟩
  | some f =>
    let head := dumpHeader env f
    let ftable := dumpTable env f
    if env.mkdirFails || env.chdirFails then ⟨.directoryError, []⟩
    else dumpLoop env f head.key [] ftable []

/-- One name returned by `readdir`, with what `stat` and `fopen` say about it. -/
structure DirEnt where
  /-- The name `entry->d_name`. -/
  d_name : List Byte
  /-- The test `S_ISREG(st.st_mode)`. -/
  isReg : Bool
  /-- The call `fopen(entry->d_name, "rb")` succeeds. -/
  opens : Bool
  /-- The bytes of the file; `st.st_size` is their number. -/
  data : List Byte

/-- The call `strncpy(dst, src, n)`: the first `n` bytes of `dst`, which are the bytes of
`src` before its first zero byte, cut to `n` bytes or extended with zero bytes. -/
def strncpy (n : Nat) (src : List Byte) : List Byte :=
  padTo n (src.takeWhile (fun b => b != 0))

/-- The eight bytes of the string `"PackPlus"`. -/
def packPlus : List Byte := [0x50, 0x61, 0x63, 0x6B, 0x50, 0x6C, 0x75, 0x73]

/-- Lines 129-130 of `pack`: `struct HEADER head = {0};` followed by
`strncpy(head.magic, "PackPlus", 0x2A);`. -/
def dummyHeader : HEADER :=
  { magic := strncpy 0x2A packPlus ++ [0], key := 0, fcount := 0, ft_pos := 0 }

/-- Lines 147-151 of `pack`: the table entry of a file named `d_name` of `size` bytes when
`ftell(output_f)` is `pos`. -/
def mkEntry (d_name : List Byte) (pos size : Nat) : FT_ENTRY :=
  { fname := strncpy 0x26 d_name ++ [0]
    encofs := 0
    fpos := pos % U32
    fsize := size % U32 }

/-- How a run of `pack` ended. -/
inductive PackResult where
  /-- The function ran to its end; the bytes of the archive. -/
  | ok (archive : List Byte)
  /-- The archive could not be opened for writing. -/
  | archiveOpenError
  /-- The source directory could not be entered. -/
  | directoryError
  /-- A source file could not be opened; the bytes written to the archive before that. -/
  | fileOpenError (written : List Byte)
  /-- Table entry `i` was written outside the block allocated for the table. -/
  | fault (i : Nat)
deriving DecidableEq

/-- Lines 169-178 of `pack`: the table is appended to the stream `out` written so far, and
the header, now complete, is written again over the first `0x34` bytes. -/
def finish (out : List Byte) (ftable : List FT_ENTRY) : List Byte :=
  let ft_pos := out.length
  let all := out ++ encodeTable ftable
  let head : HEADER :=
    { dummyHeader with key := 0, fcount := ftable.length % U32, ft_pos := ft_pos % U32 }
  encodeHeader head ++ all.drop 0x34

/-- Lines 136-171 of `pack`, the loop over the directory.  `out` is the stream written so
far (so `ftell(output_f)` is its length), `ftable` holds the entries written so far (so
`ft_count` is its length), `ft_max` is the variable of that name and `cap` the number of
entries the block of the table has room for. -/
def packLoop : List DirEnt → List Byte → List FT_ENTRY → Nat → Nat → PackResult
  | [], out, ftable, _, _ => .ok (finish out ftable)
  | d :: ds, out, ftable, ft_max, cap =>
    if d.isReg then
      let i := ftable.length
      let ft_count := i + 1
      let ft_max1 := if ft_count = ft_max then ft_max * 2 else ft_max
      let cap1 := if ft_count = ft_max then ft_max * 2 else cap
      if i < cap1 then
        let e := mkEntry d.d_name out.length d.data.length
        if d.opens then packLoop ds (out ++ d.data) (ftable ++ [e]) ft_max1 cap1
        else .fileOpenError out
      else .fault i
    else packLoop ds out ftable ft_max cap

/-- The function `pack`, on the entries `dir` of the source directory in the order
`readdir` returns them; `outOpens` and `chdirOk` say whether the archive could be opened
for writing and the directory entered. -/
def pack (outOpens chdirOk : Bool) (dir : List DirEnt) : PackResult :=
  if outOpens then
    if chdirOk then packLoop dir (encodeHeader dummyHeader) [] 10 16
    else .directoryError
  else .archiveOpenError

/-- A readable regular file of the source directory. -/
def regFile (name data : List Byte) : DirEnt :=
  { d_name := name, isReg := true, opens := true, data := data }

/-- The bytes of an ASCII string. -/
def ascii (s : String) : List Byte := s.toList.map (fun c => byteOf c.toNat)

/-- An environment in which nothing fails: `char` is signed, memory the program did not
write holds zero bytes, `malloc` rounds its blocks as glibc does on x86-64, the directory
can be entered and every non-empty name without `/` can be created. -/
def quietEnv : Env :=
  { signedChar := true
    oldHead := fun _ => 0
    oldTable := fun _ => 0
    oldBuf := fun _ _ => 0
    pastSize := fun _ _ => 0
    pastName := fun _ => []
    slack := fun n => max 32 ((n + 23) / 16 * 16) - 8 - n
    mkdirFails := false
    chdirFails := false
    canOpen := fun name => name != [] && !name.contains 0x2F }

/-! ## Closed forms used to state what `pack` writes -/


/-- The regular files among the entries of a directory, in the order of `readdir`. -/
def regs (dir : List DirEnt) : List DirEnt := dir.filter (fun d => d.isReg)

/-- The contents of the given files, one after the other. -/
def payload : List DirEnt → List Byte
  | [] => []
  | d :: ds => d.data ++ payload ds

/-- The sum of the sizes of the given files. -/
def totalSize : List DirEnt → Nat
  | [] => 0
  | d :: ds => d.data.length + totalSize ds

/-- The table entries of the given files when the first of them is written at `pos`. -/
def entriesAt : Nat → List DirEnt → List FT_ENTRY
  | _, [] => []
  | pos, d :: ds => mkEntry d.d_name pos d.data.length :: entriesAt (pos + d.data.length) ds

/-- The number of bytes of the archive that holds the given files. -/
def archiveSize (files : List DirEnt) : Nat := 0x34 + totalSize files + 0x30 * files.length


/-- The directory of the end-to-end example: `a.txt` holding `"hi"` and `b.ogg` holding
the bytes `DE AD BE EF`. -/
def exampleDir : List DirEnt :=
  [regFile (ascii "a.txt") (ascii "hi"), regFile (ascii "b.ogg") [0xDE, 0xAD, 0xBE, 0xEF]]

/-- The archive `pack` writes for `exampleDir`. -/
def exampleArchive : List Byte :=
  encodeHeader ⟨dummyHeader.magic, 0, 2, 0x3A⟩
    ++ ascii "hi" ++ [0xDE, 0xAD, 0xBE, 0xEF]
    ++ encodeEntry (mkEntry (ascii "a.txt") 0x34 2)
    ++ encodeEntry (mkEntry (ascii "b.ogg") 0x36 4)

/-- A regular file of `2^32` zero bytes. -/
def hugeFile : DirEnt := regFile (ascii "huge") (List.replicate U32 0)

/-- An archive with key `0xFF` and two entries: `a` holding the stored bytes `01 02 03` at
`0x34`, and `b` holding the stored byte `04` at `0x37`; the table is at `0x38`. -/
def xorArchive : List Byte :=
  encodeHeader ⟨dummyHeader.magic, 0xFF, 2, 0x38⟩
    ++ [0x01, 0x02, 0x03] ++ [0x04]
    ++ encodeEntry (mkEntry (ascii "a") 0x34 3)
    ++ encodeEntry (mkEntry (ascii "b") 0x37 1)

/-- An archive with key `0xFF` and two entries: `a.ogg` holding the stored bytes `01 02` at
`0x34`, and `b` holding the stored byte `03` at `0x36`; the table is at `0x37`. -/
def oggArchive : List Byte :=
  encodeHeader ⟨dummyHeader.magic, 0xFF, 2, 0x37⟩
    ++ [0x01, 0x02] ++ [0x03]
    ++ encodeEntry (mkEntry (ascii "a.ogg") 0x34 2)
    ++ encodeEntry (mkEntry (ascii "b") 0x36 1)

/-- A stream that ends right after its header, which announces one table entry at
`0x34`. -/
def shortArchive : List Byte := encodeHeader ⟨dummyHeader.magic, 0, 1, 0x34⟩

/-- The environment `quietEnv`, except that the block allocated for the table still holds
the bytes of an earlier entry named `x`, of size `0`. -/
def staleEnv : Env :=
  { quietEnv with oldTable := fun i => (encodeEntry (mkEntry (ascii "x") 0 0)).getD i 0 }

/-- A file name of 50 characters. -/
def longName : List Byte := ascii "0123456789abcdefghijklmnopqrstuvwxyzABCDEFGHIJKLMN"

/-- A table entry as `pack` builds them: a full name field and 32-bit numbers. -/
def EntryOk (e : FT_ENTRY) : Prop :=
  e.fname.length = 0x27 ∧ e.fpos < U32 ∧ e.fsize < U32

/-! ## The indices the loops use -/

/-- The indices `i` at which line 97 of `dump` reads `ftable[i].fsize`, in order, for a
buffer of `n` bytes, up to the first access outside the table or the buffer; the arguments
are those of `xorFrom`, of which this is the trace. -/
def xorReads : List FT_ENTRY → Nat → Nat → List Nat
  | [], i, _ => [i]
  | e :: rest, i, n =>
    if i < e.fsize then
      if i < n then i :: xorReads rest (i + 1) n
      else [i]
    else [i]

/-- Lines 142-146 of `pack` along the directory: for each regular file, the index `i` at
which its table entry is written, paired with the number of entries the block of the table
has room for at that moment.  `ft_count`, `ft_max` and `cap` are as in `packLoop`, of which
this is the trace, taken whether or not the files can be opened. -/
def tableWrites : List DirEnt → Nat → Nat → Nat → List (Nat × Nat)
  | [], _, _, _ => []
  | d :: ds, ft_count, ft_max, cap =>
    if d.isReg then
      let i := ft_count
      let ft_count1 := ft_count + 1
      let ft_max1 := if ft_count1 = ft_max then ft_max * 2 else ft_max
      let cap1 := if ft_count1 = ft_max then ft_max * 2 else cap
      (i, cap1) :: tableWrites ds ft_count1 ft_max1 cap1
    else tableWrites ds ft_count ft_max cap

/-! ## The command line -/

/-- The test `!strcmp(a, b)` on two strings given by their bytes. -/
def streq (a b : List Byte) : Bool := a == b

/-- What `main` finds outside the program when it calls `dump` or `pack`. -/
structure World where
  /-- The bytes of the file that `fopen(ifname, "rb")` opens, if it can be opened. -/
  archive : List Byte → Option (List Byte)
  /-- What `dump` runs in when its output directory is `dir`. -/
  dumpEnv : List Byte → Env
  /-- The call `fopen(ofname, "wb")` of `pack` succeeds. -/
  outOpens : List Byte → Bool
  /-- The call `chdir(dname)` of `pack` succeeds. -/
  chdirOk : List Byte → Bool
  /-- The entries `readdir` returns in the directory `dname`. -/
  entries : List Byte → List DirEnt

/-- What `main` does before it returns. -/
inductive Action where
  /-- It prints the usage text. -/
  | usage
  /-- It runs `dump(argv[2], argv[3])`, with the given outcome. -/
  | ranDump (ifname dir : List Byte) (r : DumpResult)
  /-- It runs `pack(argv[2], argv[3])`, with the given outcome. -/
  | ranPack (dname ofname : List Byte) (r : PackResult)
  /-- It prints that the mode `argv[1]` is invalid. -/
  | invalidMode (mode : List Byte)
deriving DecidableEq

/-- The outcome of `main`: the value it returns, or `none` when the process is ended
before `main` returns, and what it did. -/
structure MainResult where
  status : Option Int
  action : Action
deriving DecidableEq

/-- The call of `dump` returns to `main`: the process was not ended inside it. -/
def dumpReturns (r : DumpResult) : Bool :=
  match r.status with
  | .fault _ _ => false
  | _ => true

/-- The call of `pack` returns to `main`. -/
def packReturns (r : PackResult) : Bool :=
  match r with
  | .fault _ => false
  | _ => true

/-- The function `main`, on the argument vector `argv` (so `argc` is its length).  `dump`
and `pack` return nothing to `main`; when the call returns, `main` goes on to its
`return 0`. -/
def main (w : World) (argv : List (List Byte)) : MainResult :=
  let argc := argv.length
  if argc < 4 || (argc == 2 && streq (argv.getD 1 []) (ascii "-h")) then ⟨some 0, .usage⟩
  else if streq (argv.getD 1 []) (ascii "dump") then
    let r := dump (w.dumpEnv (argv.getD 3 [])) (w.archive (argv.getD 2 []))
    ⟨if dumpReturns r then some 0 else none, .ranDump (argv.getD 2 []) (argv.getD 3 []) r⟩
  else if streq (argv.getD 1 []) (ascii "pack") then
    let r := pack (w.outOpens (argv.getD 3 [])) (w.chdirOk (argv.getD 2 []))
      (w.entries (argv.getD 2 []))
    ⟨if packReturns r then some 0 else none, .ranPack (argv.getD 2 []) (argv.getD 3 []) r⟩
  else ⟨some 0, .invalidMode (argv.getD 1 [])⟩

/-! ## More archives -/

/-- An archive of `0x38` bytes whose header places the table of its one entry at offset
`8`, inside the magic field: the magic is `"PackPlus"` followed by the byte `c` and zero
bytes, the key is `0`, and four zero bytes follow the header. -/
def magicArchive (c : Byte) : List Byte :=
  encodeHeader ⟨packPlus ++ [c], 0, 1, 8⟩ ++ [0, 0, 0, 0]

/-- The archive `xorArchive` with every byte of its magic field set to `0xAA`. -/
def otherMagicArchive : List Byte := List.replicate 0x2B 0xAA ++ xorArchive.drop 0x2B

/-- The file named `n` in an output directory that was empty before the run, given the
files opened with `"wb"` and written during the run, in order: a later file of the same
name replaces an earlier one. -/
def onDisk : List (List Byte × List Byte) → List Byte → Option (List Byte)
  | [], _ => none
  | (m, c) :: rest, n =>
    match onDisk rest n with
    | some x => some x
    | none => if m = n then some c else none

/-- The name `dump` opens for entry `j` of the table `t` read from the archive: entry `j`
has been rewritten by lines 83-84, the entries after it have not. -/
def entryName (env : Env) (t : List FT_ENTRY) (j : Nat) : List Byte :=
  match t.drop j with
  | [] => []
  | e :: todo => nameAt (fixEntry env.signedChar e) todo (env.pastName j)

/-- The table in memory while entry `j` is extracted: the entries `0 .. j` have been
rewritten by lines 83-84, the entries after them are as read from the archive. -/
def tableAt (env : Env) (t : List FT_ENTRY) (j : Nat) : List FT_ENTRY :=
  (t.take (j + 1)).map (fixEntry env.signedChar) ++ t.drop (j + 1)

/-- The buffer of entry `j` after lines 94-96. -/
def bufAt (env : Env) (f : List Byte) (t : List FT_ENTRY) (j : Nat) : List Byte :=
  match t[j]? with
  | none => []
  | some e =>
    fread (env.oldBuf j) (fixEntry env.signedChar e).fsize f (fixEntry env.signedChar e).fpos

/-- Line 97 damages the heap while entry `j` is extracted: the key is not `0` and the loop
makes more rounds than the block of `buf` has bytes. -/
def overruns (env : Env) (f : List Byte) (key : Byte) (t : List FT_ENTRY) (j : Nat) : Bool :=
  key != 0 &&
    decide ((bufAt env f t j).length + env.slack (bufAt env f t j).length
      < (xorRun key (env.pastSize j) (tableAt env t j) 0 (bufAt env f t j)).2)

/-- The name `f` followed by the two decimal digits of `k`. -/
def tornName (k : Nat) : List Byte := ascii "f" ++ [byteOf (0x30 + k / 10), byteOf (0x30 + k % 10)]

/-- An archive with key `0xFF` and 40 entries: `f00` holding one byte at `0x34`, `no/dir`
and `f02 .. f39` each holding the 64 bytes at `0x35`; the table is at `0x75`. -/
def tornArchive : List Byte :=
  encodeHeader ⟨dummyHeader.magic, 0xFF, 40, 0x75⟩
    ++ List.replicate 65 0x41
    ++ encodeEntry (mkEntry (tornName 0) 0x34 1)
    ++ encodeEntry (mkEntry (ascii "no/dir") 0x35 64)
    ++ encodeTable ((List.range 38).map (fun k => mkEntry (tornName (k + 2)) 0x35 64))

/-- A world in which the file `in.pak` holds `tornArchive`, `dump` runs in `quietEnv`, and
`pack` finds an empty directory. -/
def tornWorld : World :=
  { archive := fun n => if n = ascii "in.pak" then some tornArchive else none
    dumpEnv := fun _ => quietEnv
    outOpens := fun _ => true
    chdirOk := fun _ => true
    entries := fun _ => [] }

/-! ## Theorems -/


/-! ## The byte codec -/

theorem length_le32 (n : Nat) : (le32 n).length = 4 := rfl

theorem length_padTo (n : Nat) (bs : List Byte) : (padTo n bs).length = n := by
  simp [padTo]; omega

theorem padTo_of_length {n : Nat} {bs : List Byte} (h : bs.length = n) : padTo n bs = bs := by
  subst h
  simp [padTo]

theorem padTo_append {n : Nat} {bs : List Byte} (h : bs.length = n) (rest : List Byte) :
    padTo n (bs ++ rest) = bs := by
  subst h
  simp [padTo]

theorem length_encodeHeader (h : HEADER) : (encodeHeader h).length = 0x34 := by
  simp [encodeHeader, length_padTo, length_le32]

theorem length_encodeEntry (e : FT_ENTRY) : (encodeEntry e).length = 0x30 := by
  simp [encodeEntry, length_padTo, length_le32]

theorem length_encodeTable (es : List FT_ENTRY) : (encodeTable es).length = 0x30 * es.length := by
  induction es with
  | nil => rfl
  | cons e es ih => simp [encodeTable, length_encodeEntry, ih]; omega

theorem rd32_lt (mem : List Byte) (off : Nat) : rd32 mem off < U32 := by
  have h0 := (mem.getD off 0).isLt
  have h1 := (mem.getD (off + 1) 0).isLt
  have h2 := (mem.getD (off + 2) 0).isLt
  have h3 := (mem.getD (off + 3) 0).isLt
  simp only [rd32, U32]
  omega

theorem getD_append_add (pre xs : List Byte) (k : Nat) :
    (pre ++ xs).getD (pre.length + k) 0 = xs.getD k 0 := by
  simp [List.getD_eq_getElem?_getD, List.getElem?_append_right]

theorem rd32_append (pre xs : List Byte) (k : Nat) :
    rd32 (pre ++ xs) (pre.length + k) = rd32 xs k := by
  simp only [rd32, Nat.add_assoc, getD_append_add]

theorem rd32_le32 (n : Nat) (post : List Byte) : rd32 (le32 n ++ post) 0 = n % U32 := by
  simp only [rd32, le32, U32, List.getD_eq_getElem?_getD, List.cons_append, List.nil_append,
    List.getElem?_cons_zero, List.getElem?_cons_succ, Option.getD_some, byteOf]
  omega

theorem rd32_at (pre post : List Byte) (n off : Nat) (h : pre.length = off) :
    rd32 (pre ++ (le32 n ++ post)) off = n % U32 := by
  subst h
  have := rd32_append pre (le32 n ++ post) 0
  simpa [rd32_le32] using this


theorem decodeHeader_encodeHeader (h : HEADER) (rest : List Byte) :
    decodeHeader (encodeHeader h ++ rest) =
      { magic := padTo 0x2B h.magic, key := h.key, fcount := h.fcount % U32,
        ft_pos := h.ft_pos % U32 } := by
  have e1 : encodeHeader h ++ rest =
      padTo 0x2B h.magic ++ ([h.key] ++ le32 h.fcount ++ le32 h.ft_pos ++ rest) := by
    simp [encodeHeader]
  have e2 : encodeHeader h ++ rest =
      (padTo 0x2B h.magic ++ [h.key]) ++ (le32 h.fcount ++ (le32 h.ft_pos ++ rest)) := by
    simp [encodeHeader]
  have e3 : encodeHeader h ++ rest =
      (padTo 0x2B h.magic ++ [h.key] ++ le32 h.fcount) ++ (le32 h.ft_pos ++ rest) := by
    simp [encodeHeader]
  have hm : padTo 0x2B (encodeHeader h ++ rest) = padTo 0x2B h.magic := by
    rw [e1]; exact padTo_append (length_padTo _ _) _
  have hk : (encodeHeader h ++ rest).getD 0x2B 0 = h.key := by
    rw [e1]
    have := getD_append_add (padTo 0x2B h.magic)
      ([h.key] ++ le32 h.fcount ++ le32 h.ft_pos ++ rest) 0
    rw [length_padTo] at this
    simpa using this
  have hc : rd32 (encodeHeader h ++ rest) 0x2C = h.fcount % U32 := by
    rw [e2]; exact rd32_at _ _ _ _ (by simp [length_padTo])
  have hp : rd32 (encodeHeader h ++ rest) 0x30 = h.ft_pos % U32 := by
    rw [e3]; exact rd32_at _ _ _ _ (by simp [length_padTo, length_le32])
  simp only [decodeHeader, hm, hk, hc, hp]

theorem decodeEntry_encodeEntry (e : FT_ENTRY) (rest : List Byte) :
    decodeEntry (encodeEntry e ++ rest) =
      { fname := padTo 0x27 e.fname, encofs := e.encofs, fpos := e.fpos % U32,
        fsize := e.fsize % U32 } := by
  have e1 : encodeEntry e ++ rest =
      padTo 0x27 e.fname ++ ([e.encofs] ++ le32 e.fpos ++ le32 e.fsize ++ rest) := by
    simp [encodeEntry]
  have e2 : encodeEntry e ++ rest =
      (padTo 0x27 e.fname ++ [e.encofs]) ++ (le32 e.fpos ++ (le32 e.fsize ++ rest)) := by
    simp [encodeEntry]
  have e3 : encodeEntry e ++ rest =
      (padTo 0x27 e.fname ++ [e.encofs] ++ le32 e.fpos) ++ (le32 e.fsize ++ rest) := by
    simp [encodeEntry]
  have hm : padTo 0x27 (encodeEntry e ++ rest) = padTo 0x27 e.fname := by
    rw [e1]; exact padTo_append (length_padTo _ _) _
  have hk : (encodeEntry e ++ rest).getD 0x27 0 = e.encofs := by
    rw [e1]
    have := getD_append_add (padTo 0x27 e.fname)
      ([e.encofs] ++ le32 e.fpos ++ le32 e.fsize ++ rest) 0
    rw [length_padTo] at this
    simpa using this
  have hc : rd32 (encodeEntry e ++ rest) 0x28 = e.fpos % U32 := by
    rw [e2]; exact rd32_at _ _ _ _ (by simp [length_padTo])
  have hp : rd32 (encodeEntry e ++ rest) 0x2C = e.fsize % U32 := by
    rw [e3]; exact rd32_at _ _ _ _ (by simp [length_padTo, length_le32])
  simp only [decodeEntry, hm, hk, hc, hp]

theorem decodeEntry_encodeEntry_ok {e : FT_ENTRY} (h : EntryOk e) (rest : List Byte) :
    decodeEntry (encodeEntry e ++ rest) = e := by
  obtain ⟨h1, h2, h3⟩ := h
  rw [decodeEntry_encodeEntry, padTo_of_length h1, Nat.mod_eq_of_lt h2, Nat.mod_eq_of_lt h3]

theorem decodeTable_encodeTable (es : List FT_ENTRY) (h : ∀ e ∈ es, EntryOk e)
    (rest : List Byte) : decodeTable es.length (encodeTable es ++ rest) = es := by
  induction es with
  | nil => rfl
  | cons e es ih =>
    have hd : (encodeEntry e ++ (encodeTable es ++ rest)).drop 0x30 = encodeTable es ++ rest := by
      rw [List.drop_append_of_le_length (by rw [length_encodeEntry])]
      rw [List.drop_of_length_le (by rw [length_encodeEntry])]
      rfl
    simp only [encodeTable, List.length_cons, decodeTable, List.append_assoc]
    rw [decodeEntry_encodeEntry_ok (h e (List.mem_cons_self _ _)), hd,
      ih (fun x hx => h x (List.mem_cons_of_mem _ hx))]

theorem length_decodeTable (n : Nat) (mem : List Byte) : (decodeTable n mem).length = n := by
  induction n generalizing mem with
  | zero => rfl
  | succ n ih => simp [decodeTable, ih]

theorem fsize_lt_of_mem_decodeTable {n : Nat} {mem : List Byte} {e : FT_ENTRY}
    (h : e ∈ decodeTable n mem) : e.fsize < U32 ∧ e.fpos < U32 := by
  induction n generalizing mem with
  | zero => simp [decodeTable] at h
  | succ n ih =>
    simp only [decodeTable, List.mem_cons] at h
    rcases h with h | h
    · subst h; exact ⟨rd32_lt _ _, rd32_lt _ _⟩
    · exact ih h

/-! ## Reading from a stream -/

theorem fread_of_le (old : Nat → Byte) {n pos : Nat} {f : List Byte} (h : pos + n ≤ f.length) :
    fread old n f pos = (f.drop pos).take n := by
  have hl : ((f.drop pos).take n).length = n := by simp; omega
  simp [fread, hl]

theorem fread_prefix (old : Nat → Byte) (pre mid post : List Byte) :
    fread old mid.length (pre ++ (mid ++ post)) pre.length = mid := by
  rw [fread_of_le old (by simp)]
  simp


/-! ## The writer -/

theorem length_payload (files : List DirEnt) : (payload files).length = totalSize files := by
  induction files with
  | nil => rfl
  | cons d ds ih => simp [payload, totalSize, ih]

theorem length_entriesAt (pos : Nat) (files : List DirEnt) :
    (entriesAt pos files).length = files.length := by
  induction files generalizing pos with
  | nil => rfl
  | cons d ds ih => simp [entriesAt, ih]

theorem length_strncpy (n : Nat) (src : List Byte) : (strncpy n src).length = n :=
  length_padTo _ _

theorem entryOk_mkEntry (name : List Byte) (pos size : Nat) : EntryOk (mkEntry name pos size) := by
  refine ⟨?_, Nat.mod_lt _ (by decide), Nat.mod_lt _ (by decide)⟩
  simp [mkEntry, length_strncpy]

theorem entryOk_entriesAt (pos : Nat) (files : List DirEnt) :
    ∀ e ∈ entriesAt pos files, EntryOk e := by
  induction files generalizing pos with
  | nil => intro e he; simp [entriesAt] at he
  | cons d ds ih =>
    intro e he
    simp only [entriesAt, List.mem_cons] at he
    rcases he with he | he
    · subst he; exact entryOk_mkEntry _ _ _
    · exact ih _ e he

theorem packLoop_eq (dir : List DirEnt) (h : ∀ d ∈ dir, d.isReg = true → d.opens = true) :
    ∀ (out : List Byte) (ftable : List FT_ENTRY) (ft_max cap : Nat),
      ftable.length < ft_max → ft_max ≤ cap →
      packLoop dir out ftable ft_max cap =
        .ok (finish (out ++ payload (regs dir)) (ftable ++ entriesAt out.length (regs dir))) := by
  induction dir with
  | nil => intro out ftable ft_max cap _ _; simp [packLoop, regs, payload, entriesAt]
  | cons d ds ih =>
    intro out ftable ft_max cap h1 h2
    have hds : ∀ x ∈ ds, x.isReg = true → x.opens = true :=
      fun x hx => h x (List.mem_cons_of_mem _ hx)
    by_cases hr : d.isReg = true
    · have ho : d.opens = true := h d (List.mem_cons_self _ _) hr
      have hregs : regs (d :: ds) = d :: regs ds := by simp [regs, hr]
      by_cases hm : ftable.length + 1 = ft_max
      · have hc : ftable.length < ft_max * 2 := by omega
        simp only [packLoop, hr, ho, hm, if_true, hc]
        rw [ih hds _ _ _ _ (by simp; omega) (le_refl _), hregs]
        simp [payload, entriesAt]
      · have hc : ftable.length < cap := by omega
        simp only [packLoop, hr, ho, hm, if_true, if_false, hc]
        rw [ih hds _ _ _ _ (by simp; omega) h2, hregs]
        simp [payload, entriesAt]
    · have hregs : regs (d :: ds) = regs ds := by simp [regs, hr]
      simp only [packLoop, hr, hregs]
      exact ih hds _ _ _ _ h1 h2

/-- What lines 169-178 make of a stream that starts with the dummy header. -/
theorem finish_eq (p : List Byte) (es : List FT_ENTRY) :
    finish (encodeHeader dummyHeader ++ p) es =
      encodeHeader ⟨dummyHeader.magic, 0, es.length % U32, (0x34 + p.length) % U32⟩
        ++ (p ++ encodeTable es) := by
  have hd : (encodeHeader dummyHeader ++ p ++ encodeTable es).drop 0x34 = p ++ encodeTable es := by
    rw [List.append_assoc, List.drop_append_of_le_length (by rw [length_encodeHeader])]
    rw [List.drop_of_length_le (by rw [length_encodeHeader])]
    rfl
  simp only [finish, hd, List.length_append, length_encodeHeader]

theorem pack_eq (dir : List DirEnt) (h : ∀ d ∈ dir, d.isReg = true → d.opens = true) :
    pack true true dir =
      .ok (encodeHeader
          ⟨dummyHeader.magic, 0, (regs dir).length % U32, (0x34 + totalSize (regs dir)) % U32⟩
        ++ (payload (regs dir) ++ encodeTable (entriesAt 0x34 (regs dir)))) := by
  simp only [pack, if_true]
  rw [packLoop_eq dir h _ _ _ _ (by simp) (by decide), finish_eq]
  simp [length_entriesAt, length_payload, length_encodeHeader]


/-! ## The reader on what the writer wrote -/

theorem dumpHeader_encodeHeader (env : Env) (h : HEADER) (rest : List Byte) :
    dumpHeader env (encodeHeader h ++ rest) =
      { magic := padTo 0x2B h.magic, key := h.key, fcount := h.fcount % U32,
        ft_pos := h.ft_pos % U32 } := by
  have hf : fread env.oldHead 0x34 (encodeHeader h ++ rest) 0 = encodeHeader h := by
    have := fread_prefix env.oldHead [] (encodeHeader h) rest
    simpa [length_encodeHeader] using this
  rw [dumpHeader, hf]
  simpa using decodeHeader_encodeHeader h []

theorem dumpTable_encodeHeader (env : Env) (h : HEADER) (p : List Byte) (es : List FT_ENTRY)
    (hes : ∀ e ∈ es, EntryOk e) (hc : h.fcount = es.length) (hp : h.ft_pos = 0x34 + p.length)
    (hlt : 0x34 + p.length + 0x30 * es.length < U32) :
    dumpTable env (encodeHeader h ++ (p ++ encodeTable es)) = es := by
  have h1 : h.fcount % U32 = es.length := by rw [hc]; exact Nat.mod_eq_of_lt (by omega)
  have h2 : h.ft_pos % U32 = 0x34 + p.length := by rw [hp]; exact Nat.mod_eq_of_lt (by omega)
  have hf : fread env.oldTable (0x30 * es.length) (encodeHeader h ++ (p ++ encodeTable es))
      (0x34 + p.length) = encodeTable es := by
    have := fread_prefix env.oldTable (encodeHeader h ++ p) (encodeTable es) []
    simpa [length_encodeHeader, length_encodeTable] using this
  simp only [dumpTable, dumpHeader_encodeHeader, h1, h2, hf]
  simpa using decodeTable_encodeTable es hes []

theorem entriesAt_bounds (pos : Nat) (files : List DirEnt) (h : pos + totalSize files < U32) :
    ∀ e ∈ entriesAt pos files, pos ≤ e.fpos ∧ e.fpos + e.fsize ≤ pos + totalSize files := by
  induction files generalizing pos with
  | nil => intro e he; simp [entriesAt] at he
  | cons d ds ih =>
    intro e he
    simp only [totalSize] at h
    simp only [entriesAt, List.mem_cons] at he
    rcases he with he | he
    · subst he
      have a1 : pos % U32 = pos := Nat.mod_eq_of_lt (by omega)
      have a2 : d.data.length % U32 = d.data.length := Nat.mod_eq_of_lt (by omega)
      simp only [mkEntry, totalSize, a1, a2]
      omega
    · have := ih (pos + d.data.length) (by omega) e he
      simp only [totalSize]
      omega

theorem entriesAt_getElem? (pos : Nat) (files : List DirEnt) (i : Nat) :
    (entriesAt pos files)[i]? =
      (files[i]?).map
        (fun d => mkEntry d.d_name (pos + totalSize (files.take i)) d.data.length) := by
  induction files generalizing pos i with
  | nil => simp [entriesAt]
  | cons d ds ih =>
    cases i with
    | zero => simp [entriesAt, totalSize]
    | succ i => simp [entriesAt, totalSize, ih, Nat.add_assoc]

theorem totalSize_take_le (files : List DirEnt) (i : Nat) (d : DirEnt)
    (h : files[i]? = some d) :
    totalSize (files.take i) + d.data.length ≤ totalSize files := by
  induction files generalizing i with
  | nil => simp at h
  | cons x xs ih =>
    cases i with
    | zero => simp at h; subst h; simp [totalSize]
    | succ i =>
      simp at h
      have := ih i h
      simp only [List.take_succ_cons, totalSize]
      omega

theorem payload_slice (files : List DirEnt) (i : Nat) (d : DirEnt) (h : files[i]? = some d)
    (rest : List Byte) :
    ((payload files ++ rest).drop (totalSize (files.take i))).take d.data.length = d.data := by
  induction files generalizing i with
  | nil => simp at h
  | cons x xs ih =>
    cases i with
    | zero =>
      simp at h; subst h
      simp [payload, totalSize]
    | succ i =>
      simp at h
      have := ih i h
      simp only [List.take_succ_cons, totalSize, payload, List.append_assoc]
      rw [← List.drop_drop, List.drop_left]
      exact this


/-- The archive of a directory, as the reader sees it, when it is smaller than `2^32`
bytes. -/
theorem pack_view (env : Env) (dir : List DirEnt)
    (hopen : ∀ d ∈ dir, d.isReg = true → d.opens = true)
    (hsize : archiveSize (regs dir) < U32) :
    ∃ a, pack true true dir = .ok a ∧
      a = encodeHeader ⟨dummyHeader.magic, 0, (regs dir).length, 0x34 + totalSize (regs dir)⟩
            ++ (payload (regs dir) ++ encodeTable (entriesAt 0x34 (regs dir))) ∧
      dumpHeader env a =
        ⟨dummyHeader.magic, 0, (regs dir).length, 0x34 + totalSize (regs dir)⟩ ∧
      dumpTable env a = entriesAt 0x34 (regs dir) := by
  simp only [archiveSize] at hsize
  have h1 : (regs dir).length % U32 = (regs dir).length := Nat.mod_eq_of_lt (by omega)
  have h2 : (0x34 + totalSize (regs dir)) % U32 = 0x34 + totalSize (regs dir) :=
    Nat.mod_eq_of_lt (by omega)
  refine ⟨_, ?_, rfl, ?_, ?_⟩
  · rw [pack_eq dir hopen, h1, h2]
  · rw [dumpHeader_encodeHeader]
    simp only [h1, h2]
    rw [padTo_of_length (by decide)]
  · apply dumpTable_encodeHeader env _ _ _ (entryOk_entriesAt _ _)
    · simp [length_entriesAt]
    · simp [length_payload]
    · simp only [length_entriesAt, length_payload]; omega

/-- The table of the archive of a directory, read where `pack` wrote it. -/
theorem pack_written_table (dir : List DirEnt)
    (hopen : ∀ d ∈ dir, d.isReg = true → d.opens = true) :
    ∃ a, pack true true dir = .ok a ∧
      decodeTable (regs dir).length (a.drop (0x34 + totalSize (regs dir)))
        = entriesAt 0x34 (regs dir) := by
  refine ⟨_, pack_eq dir hopen, ?_⟩
  rw [← List.append_assoc,
    List.drop_left' (by simp [length_encodeHeader, length_payload])]
  have := decodeTable_encodeTable (entriesAt 0x34 (regs dir)) (entryOk_entriesAt _ _) []
  simpa [length_entriesAt] using this

/-- C7 (writer header invariant): when every regular file of the directory can be read and
the archive is smaller than `2^32` bytes, `pack` produces an archive whose `file_count` is
the number `N` of regular files, whose table has `N` entries, each with
`0x34 ≤ stored_position` and `stored_position + stored_size ≤ table_offset`, whose bytes
from `table_offset` to the end are exactly the `N * 0x30` bytes of that table, and whose
length is `0x34 + (sum of the file sizes) + 0x30 * N`. -/
theorem pack_header_invariant (env : Env) (dir : List DirEnt)
    (hopen : ∀ d ∈ dir, d.isReg = true → d.opens = true)
    (hsize : archiveSize (regs dir) < U32) :
    ∃ a, pack true true dir = .ok a ∧
      (dumpHeader env a).fcount = (regs dir).length ∧
      (dumpTable env a).length = (regs dir).length ∧
      (∀ e ∈ dumpTable env a,
        0x34 ≤ e.fpos ∧ e.fpos + e.fsize ≤ (dumpHeader env a).ft_pos) ∧
      a.drop (dumpHeader env a).ft_pos = encodeTable (dumpTable env a) ∧
      (a.drop (dumpHeader env a).ft_pos).length = 0x30 * (regs dir).length ∧
      a.length = 0x34 + totalSize (regs dir) + 0x30 * (regs dir).length := by
  obtain ⟨a, hp, ha, hh, ht⟩ := pack_view env dir hopen hsize
  have hlen : a.length = 0x34 + totalSize (regs dir) + 0x30 * (regs dir).length := by
    rw [ha]
    simp [length_encodeHeader, length_payload, length_encodeTable, length_entriesAt]
    omega
  have hdrop : a.drop (0x34 + totalSize (regs dir)) = encodeTable (entriesAt 0x34 (regs dir)) := by
    rw [ha, ← List.append_assoc]
    exact List.drop_left' (by simp [length_encodeHeader, length_payload])
  refine ⟨a, hp, ?_, ?_, ?_, ?_, ?_, hlen⟩
  · rw [hh]
  · rw [ht, length_entriesAt]
  · rw [ht, hh]
    simp only [archiveSize] at hsize
    exact entriesAt_bounds _ _ (by omega)
  · rw [hh, ht]; exact hdrop
  · rw [hh]
    simp only [hdrop, length_encodeTable, length_entriesAt]

/-- Witness of C7 on the directory of the end-to-end example. -/
theorem pack_header_invariant_witness :
    (∀ d ∈ exampleDir, d.isReg = true → d.opens = true) ∧
    archiveSize (regs exampleDir) < U32 ∧
    ∃ a, pack true true exampleDir = .ok a ∧
      (dumpHeader quietEnv a).fcount = (regs exampleDir).length ∧
      (dumpTable quietEnv a).length = (regs exampleDir).length ∧
      (∀ e ∈ dumpTable quietEnv a,
        0x34 ≤ e.fpos ∧ e.fpos + e.fsize ≤ (dumpHeader quietEnv a).ft_pos) ∧
      a.drop (dumpHeader quietEnv a).ft_pos = encodeTable (dumpTable quietEnv a) ∧
      (a.drop (dumpHeader quietEnv a).ft_pos).length = 0x30 * (regs exampleDir).length ∧
      a.length = 0x34 + totalSize (regs exampleDir) + 0x30 * (regs exampleDir).length :=
  ⟨by decide, by decide, pack_header_invariant quietEnv exampleDir (by decide) (by decide)⟩

/-- C8, as amended (writer content layout): when every regular file of the directory can
be read and the archive is smaller than `2^32` bytes, the `i`-th table entry of the
archive `pack` produces has `stored_size` equal to the length of the `i`-th regular file
and `stored_position` equal to `0x34` plus the sum of the lengths of the files before it,
and the archive bytes in `[stored_position, stored_position + stored_size)` are that
file's content. -/
theorem pack_content_layout (env : Env) (dir : List DirEnt)
    (hopen : ∀ d ∈ dir, d.isReg = true → d.opens = true)
    (hsize : archiveSize (regs dir) < U32) :
    ∃ a, pack true true dir = .ok a ∧
      ∀ (i : Nat) (d : DirEnt), (regs dir)[i]? = some d →
        ∃ e, (dumpTable env a)[i]? = some e ∧
          e.fsize = d.data.length ∧
          e.fpos = 0x34 + totalSize ((regs dir).take i) ∧
          (a.drop e.fpos).take e.fsize = d.data := by
  obtain ⟨a, hp, ha, -, ht⟩ := pack_view env dir hopen hsize
  refine ⟨a, hp, ?_⟩
  intro i d hd
  have hle := totalSize_take_le (regs dir) i d hd
  simp only [archiveSize] at hsize
  have a1 : (0x34 + totalSize ((regs dir).take i)) % U32 = 0x34 + totalSize ((regs dir).take i) :=
    Nat.mod_eq_of_lt (by omega)
  have a2 : d.data.length % U32 = d.data.length := Nat.mod_eq_of_lt (by omega)
  refine ⟨mkEntry d.d_name (0x34 + totalSize ((regs dir).take i)) d.data.length, ?_, ?_, ?_, ?_⟩
  · rw [ht, entriesAt_getElem?, hd]; rfl
  · simp only [mkEntry, a2]
  · simp only [mkEntry, a1]
  · simp only [mkEntry, a1, a2]
    rw [ha, ← List.drop_drop, List.drop_left' (length_encodeHeader _)]
    exact payload_slice (regs dir) i d hd _

/-- Witness of the amended C8 on the directory of the end-to-end example. -/
theorem pack_content_layout_witness :
    (∀ d ∈ exampleDir, d.isReg = true → d.opens = true) ∧
    archiveSize (regs exampleDir) < U32 ∧
    ∃ a, pack true true exampleDir = .ok a ∧
      ∀ (i : Nat) (d : DirEnt), (regs exampleDir)[i]? = some d →
        ∃ e, (dumpTable quietEnv a)[i]? = some e ∧
          e.fsize = d.data.length ∧
          e.fpos = 0x34 + totalSize ((regs exampleDir).take i) ∧
          (a.drop e.fpos).take e.fsize = d.data :=
  ⟨by decide, by decide, pack_content_layout quietEnv exampleDir (by decide) (by decide)⟩

/-- C8 as stated fails: for the directory holding one regular file of `2^32` bytes, `pack`
produces an archive whose table entry for that file has `stored_size = 0`, and no entry of
the table `dump` reads from it has `stored_size` equal to the length of the file, a 32-bit
field being smaller than `2^32`. -/
theorem pack_content_layout_counterexample :
    hugeFile.data.length = 4294967296 ∧
    (regs [hugeFile])[0]? = some hugeFile ∧
    (∃ a, pack true true [hugeFile] = .ok a ∧
      (decodeTable 1 (a.drop (0x34 + 4294967296))).map (fun e => e.fsize) = [0]) ∧
    ¬ ∃ a e, pack true true [hugeFile] = .ok a ∧
        (dumpTable quietEnv a)[0]? = some e ∧ e.fsize = hugeFile.data.length := by
  have hopen : ∀ d ∈ [hugeFile], d.isReg = true → d.opens = true := by
    intro d hd _
    rw [List.mem_singleton] at hd
    subst hd
    rfl
  have hlen : hugeFile.data.length = U32 := by
    simp only [hugeFile, regFile, List.length_replicate]
  have hregs : regs [hugeFile] = [hugeFile] := rfl
  have htot : totalSize [hugeFile] = U32 := by
    rw [totalSize, totalSize, hlen]
    rfl
  refine ⟨hlen, rfl, ?_, ?_⟩
  · obtain ⟨a, hp, hT⟩ := pack_written_table [hugeFile] hopen
    rw [hregs, htot, List.length_singleton] at hT
    refine ⟨a, hp, ?_⟩
    have h32 : (4294967296 : Nat) = U32 := rfl
    rw [h32, hT]
    simp only [entriesAt, List.map, mkEntry, hlen, Nat.mod_self]
  · rintro ⟨a, e, -, he, hs⟩
    have hmem : e ∈ dumpTable quietEnv a := List.getElem?_mem he
    have hlt := (fsize_lt_of_mem_decodeTable hmem).1
    omega

/-! ## The decryption loop -/

theorem xorByte_zero (b : Byte) : xorByte b 0 = b := by
  apply Fin.ext
  simp [xorByte, byteOf]

theorem xorByte_xorByte (b k : Byte) : xorByte (xorByte b k) k = b := by
  apply Fin.ext
  have h1 : b.val ^^^ k.val < 256 := Nat.xor_lt_two_pow (n := 8) b.isLt k.isLt
  simp [xorByte, byteOf, Nat.mod_eq_of_lt h1, Nat.xor_cancel_right]

theorem set_getD_self (buf : List Byte) (i : Nat) : buf.set i (buf.getD i 0) = buf := by
  apply List.ext_getElem?
  intro j
  by_cases hj : i = j
  · subst hj
    by_cases hi : i < buf.length
    · simp [List.getElem?_set, hi, List.getD_eq_getElem?_getD]
    · simp [List.getElem?_set, hi]
      omega
  · simp [List.getElem?_set, hj]

/-- The loop started at counter `i + 1` leaves the bytes below it alone. -/
theorem xorFrom_set (key : Byte) (t : List FT_ENTRY) (i j : Nat) (v : Byte) (buf : List Byte)
    (hj : j ≤ i) :
    xorFrom key t (i + 1) (buf.set j v) = (xorFrom key t (i + 1) buf).map (fun r => r.set j v) := by
  induction t generalizing i buf with
  | nil => rfl
  | cons e rest ih =>
    simp only [xorFrom, List.length_set]
    split
    · split
      · have hne : j ≠ i + 1 := by omega
        have hg : (buf.set j v).getD (i + 1) 0 = buf.getD (i + 1) 0 := by
          simp [List.getD_eq_getElem?_getD, List.getElem?_set, hne]
        rw [hg, List.set_comm v _ buf hne, ih (i + 1) _ (by omega)]
      · rfl
    · rfl

theorem xorFrom_length (key : Byte) (t : List FT_ENTRY) (i : Nat) (buf r : List Byte)
    (h : xorFrom key t i buf = .ok r) : r.length = buf.length := by
  induction t generalizing i buf with
  | nil => simp [xorFrom] at h
  | cons e rest ih =>
    simp only [xorFrom] at h
    split at h
    · split at h
      · simpa using ih _ _ h
      · simp at h
    · simp at h; rw [h]

theorem xorFrom_getD_lt (key : Byte) (t : List FT_ENTRY) (i : Nat) (buf r : List Byte)
    (h : xorFrom key t i buf = .ok r) (j : Nat) (hj : j < i) : r.getD j 0 = buf.getD j 0 := by
  induction t generalizing i buf with
  | nil => simp [xorFrom] at h
  | cons e rest ih =>
    simp only [xorFrom] at h
    split at h
    · split at h
      · rw [ih _ _ h (by omega)]
        have hne : i ≠ j := by omega
        simp [List.getD_eq_getElem?_getD, List.getElem?_set, hne]
      · simp at h
    · simp at h; rw [h]

/-- Where the loop ends without a fault, running it again on its result gives back the
buffer it started from. -/
theorem xorFrom_involutive (key : Byte) (t : List FT_ENTRY) (i : Nat) (buf r : List Byte)
    (h : xorFrom key t i buf = .ok r) : xorFrom key t i r = .ok buf := by
  induction t generalizing i buf r with
  | nil => simp [xorFrom] at h
  | cons e rest ih =>
    simp only [xorFrom] at h ⊢
    by_cases h1 : i < e.fsize
    · by_cases h2 : i < buf.length
      · simp only [h1, h2, if_true] at h
        have hlen : r.length = buf.length := by simpa using xorFrom_length _ _ _ _ _ h
        have hget : r.getD i 0 = xorByte (buf.getD i 0) key := by
          rw [xorFrom_getD_lt _ _ _ _ _ h i (by omega)]
          simp [List.getD_eq_getElem?_getD, List.getElem?_set, h2]
        have h3 : i < r.length := by omega
        simp only [h1, h3, if_true]
        rw [xorFrom_set key rest i i _ r (le_refl _), ih _ _ _ h, hget, xorByte_xorByte]
        simp only [Except.map, List.set_set, set_getD_self]
      · simp [h1, h2] at h
    · simp only [h1, if_false] at h ⊢
      simp at h; subst h; rfl


/-! ## The decryption loop as the program runs it -/

theorem xorAt_zero (buf : List Byte) (i : Nat) : xorAt 0 buf i = buf := by
  rw [xorAt, xorByte_zero, set_getD_self]

theorem length_xorAt (key : Byte) (buf : List Byte) (i : Nat) :
    (xorAt key buf i).length = buf.length := by
  simp [xorAt]

theorem xorAt_set (key : Byte) (buf : List Byte) (i j : Nat) (v : Byte) (h : j ≠ i) :
    xorAt key (buf.set j v) i = (xorAt key buf i).set j v := by
  have hg : (buf.set j v).getD i 0 = buf.getD i 0 := by
    simp [List.getD_eq_getElem?_getD, List.getElem?_set, h]
  rw [xorAt, xorAt, hg, List.set_comm v _ buf h]

theorem getD_xorAt_ne (key : Byte) (buf : List Byte) (i j : Nat) (h : i ≠ j) :
    (xorAt key buf i).getD j 0 = buf.getD j 0 := by
  simp [xorAt, List.getD_eq_getElem?_getD, List.getElem?_set, h]

/-- Any amount of fuel from `2^32 - i` on gives the same run: the loop has ended before
the fuel is used up. -/
theorem xorPast_fuel (key : Byte) (past : Nat → Nat) (fuel i : Nat) (buf : List Byte)
    (h : U32 ≤ i + fuel) : xorPast key past fuel i buf = xorPast key past (U32 - i) i buf := by
  induction fuel generalizing i buf with
  | zero =>
    have h0 : U32 - i = 0 := by omega
    rw [h0]
  | succ n ih =>
    have hlt : past i % U32 < U32 := Nat.mod_lt _ (by decide)
    by_cases hc : i < past i % U32
    · have h1 : U32 - i = (U32 - (i + 1)) + 1 := by omega
      rw [h1]
      simp only [xorPast, hc, if_true]
      exact ih _ _ (by omega)
    · cases h1 : U32 - i with
      | zero => simp only [xorPast, hc, if_false]
      | succ m => simp only [xorPast, hc, if_false]

theorem xorPast_zero (past : Nat → Nat) (fuel i : Nat) (buf : List Byte) :
    (xorPast 0 past fuel i buf).1 = buf := by
  induction fuel generalizing i buf with
  | zero => rfl
  | succ n ih =>
    simp only [xorPast]
    split
    · rw [xorAt_zero]; exact ih _ _
    · rfl

/-- With key `0` the loop leaves the buffer as it found it, however many rounds it
makes. -/
theorem xorRun_zero (past : Nat → Nat) (t : List FT_ENTRY) (i : Nat) (buf : List Byte) :
    (xorRun 0 past t i buf).1 = buf := by
  induction t generalizing i buf with
  | nil => exact xorPast_zero _ _ _ _
  | cons e rest ih =>
    simp only [xorRun]
    split
    · rw [xorAt_zero]; exact ih _ _
    · rfl

theorem xorPast_length (key : Byte) (past : Nat → Nat) (fuel i : Nat) (buf : List Byte) :
    (xorPast key past fuel i buf).1.length = buf.length := by
  induction fuel generalizing i buf with
  | zero => rfl
  | succ n ih =>
    simp only [xorPast]
    split
    · rw [ih, length_xorAt]
    · rfl

/-- The file written has the size of the buffer. -/
theorem xorRun_length (key : Byte) (past : Nat → Nat) (t : List FT_ENTRY) (i : Nat)
    (buf : List Byte) : (xorRun key past t i buf).1.length = buf.length := by
  induction t generalizing i buf with
  | nil => exact xorPast_length _ _ _ _ _
  | cons e rest ih =>
    simp only [xorRun]
    split
    · rw [ih, length_xorAt]
    · rfl

theorem xorPast_snd (key : Byte) (past : Nat → Nat) (fuel i : Nat) (buf buf2 : List Byte) :
    (xorPast key past fuel i buf).2 = (xorPast key past fuel i buf2).2 := by
  induction fuel generalizing i buf buf2 with
  | zero => rfl
  | succ n ih =>
    simp only [xorPast]
    split
    · exact ih _ _ _
    · rfl

/-- The number of rounds does not depend on the bytes in the buffer. -/
theorem xorRun_snd (key : Byte) (past : Nat → Nat) (t : List FT_ENTRY) (i : Nat)
    (buf buf2 : List Byte) : (xorRun key past t i buf).2 = (xorRun key past t i buf2).2 := by
  induction t generalizing i buf buf2 with
  | nil => exact xorPast_snd _ _ _ _ _ _
  | cons e rest ih =>
    simp only [xorRun]
    split
    · exact ih _ _ _
    · rfl

theorem xorPast_set (key : Byte) (past : Nat → Nat) (fuel i j : Nat) (v : Byte)
    (buf : List Byte) (hj : j < i) :
    (xorPast key past fuel i (buf.set j v)).1 = (xorPast key past fuel i buf).1.set j v := by
  induction fuel generalizing i buf with
  | zero => rfl
  | succ n ih =>
    simp only [xorPast]
    split
    · rw [xorAt_set key buf i j v (by omega), ih _ _ (by omega)]
    · rfl

/-- The loop started at counter `i` leaves the bytes below `i` alone. -/
theorem xorRun_set (key : Byte) (past : Nat → Nat) (t : List FT_ENTRY) (i j : Nat) (v : Byte)
    (buf : List Byte) (hj : j < i) :
    (xorRun key past t i (buf.set j v)).1 = (xorRun key past t i buf).1.set j v := by
  induction t generalizing i buf with
  | nil => exact xorPast_set _ _ _ _ _ _ _ hj
  | cons e rest ih =>
    simp only [xorRun]
    split
    · rw [xorAt_set key buf i j v (by omega), ih _ _ (by omega)]
    · rfl

theorem xorPast_getD_lt (key : Byte) (past : Nat → Nat) (fuel i j : Nat) (buf : List Byte)
    (hj : j < i) : (xorPast key past fuel i buf).1.getD j 0 = buf.getD j 0 := by
  induction fuel generalizing i buf with
  | zero => rfl
  | succ n ih =>
    simp only [xorPast]
    split
    · rw [ih _ _ (by omega), getD_xorAt_ne key buf i j (by omega)]
    · rfl

theorem xorRun_getD_lt (key : Byte) (past : Nat → Nat) (t : List FT_ENTRY) (i j : Nat)
    (buf : List Byte) (hj : j < i) : (xorRun key past t i buf).1.getD j 0 = buf.getD j 0 := by
  induction t generalizing i buf with
  | nil => exact xorPast_getD_lt _ _ _ _ _ _ hj
  | cons e rest ih =>
    simp only [xorRun]
    split
    · rw [ih _ _ (by omega), getD_xorAt_ne key buf i j (by omega)]
    · rfl

/-- Round `i` applied to a buffer whose byte `i` went through round `i` before puts the
first byte back. -/
theorem xorAt_undo (key : Byte) (buf r : List Byte) (i : Nat) (hlen : r.length = buf.length)
    (hget : r.getD i 0 = (xorAt key buf i).getD i 0) : xorAt key r i = r.set i (buf.getD i 0) := by
  by_cases hi : i < buf.length
  · have h1 : (xorAt key buf i).getD i 0 = xorByte (buf.getD i 0) key := by
      simp [xorAt, List.getD_eq_getElem?_getD, List.getElem?_set, hi]
    rw [xorAt, hget, h1, xorByte_xorByte]
  · rw [xorAt, List.set_eq_of_length_le (by omega), List.set_eq_of_length_le (by omega)]

theorem xorPast_involutive (key : Byte) (past : Nat → Nat) (fuel i : Nat) (buf : List Byte) :
    (xorPast key past fuel i (xorPast key past fuel i buf).1).1 = buf := by
  induction fuel generalizing i buf with
  | zero => rfl
  | succ n ih =>
    simp only [xorPast]
    by_cases hc : i < past i % U32
    · simp only [hc, if_true]
      rw [xorAt_undo key buf _ i (by rw [xorPast_length, length_xorAt])
        (xorPast_getD_lt _ _ _ _ _ _ (by omega)),
        xorPast_set _ _ _ _ _ _ _ (by omega), ih, xorAt, List.set_set, set_getD_self]
    · simp only [hc, if_false]

/-- Running the loop again on its result, with the same key, the same table and the same
memory after the table, gives back the buffer it started from. -/
theorem xorRun_involutive (key : Byte) (past : Nat → Nat) (t : List FT_ENTRY) (i : Nat)
    (buf : List Byte) : (xorRun key past t i (xorRun key past t i buf).1).1 = buf := by
  induction t generalizing i buf with
  | nil => exact xorPast_involutive _ _ _ _ _
  | cons e rest ih =>
    simp only [xorRun]
    by_cases hc : i < e.fsize
    · simp only [hc, if_true]
      rw [xorAt_undo key buf _ i (by rw [xorRun_length, length_xorAt])
        (xorRun_getD_lt _ _ _ _ _ _ (by omega)),
        xorRun_set _ _ _ _ _ _ _ (by omega), ih, xorAt, List.set_set, set_getD_self]
    · simp only [hc, if_false]

/-- Where the checked loop ends inside the table and the buffer, the loop as run gives the
same buffer and makes no more rounds than the buffer has bytes. -/
theorem xorRun_of_xorFrom (key : Byte) (past : Nat → Nat) (t : List FT_ENTRY) (i : Nat)
    (buf r : List Byte) (h : xorFrom key t i buf = .ok r) (hi : i ≤ buf.length) :
    (xorRun key past t i buf).1 = r ∧ (xorRun key past t i buf).2 ≤ buf.length := by
  induction t generalizing i buf with
  | nil => simp [xorFrom] at h
  | cons e rest ih =>
    simp only [xorFrom] at h
    simp only [xorRun]
    split at h
    · rename_i h1
      split at h
      · rename_i h2
        simp only [h1, if_true]
        have := ih (i + 1) (xorAt key buf i) h (by rw [length_xorAt]; omega)
        rw [length_xorAt] at this
        exact this
      · simp at h
    · rename_i h1
      simp only [h1, if_false]
      simp at h
      exact ⟨h, hi⟩

/-- C5 (self-inverse cipher): for every key, every file table, every content of the
memory after the table and every buffer, line 97 of `dump` applied to its own result, with
the same key and the same table, gives back the buffer it started from; and the bytes it
produces are as many as the buffer holds.  The name of the entry plays no part in the
loop. -/
theorem xorRun_self_inverse (key : Byte) (past : Nat → Nat) (ftable : List FT_ENTRY)
    (buf : List Byte) :
    (xorRun key past ftable 0 (xorRun key past ftable 0 buf).1).1 = buf ∧
    (xorRun key past ftable 0 buf).1.length = buf.length ∧
    (xorRun key past ftable 0 (xorRun key past ftable 0 buf).1).2
      = (xorRun key past ftable 0 buf).2 :=
  ⟨xorRun_involutive key past ftable 0 buf, xorRun_length key past ftable 0 buf,
    xorRun_snd key past ftable 0 _ _⟩

/-! ## Runs of `dump` on given archives -/

theorem subChar_zero (sc : Bool) (x : Nat) (h : x < U32) : subChar sc x 0 = x := by
  have h0 : charToInt sc 0 = 0 := by cases sc <;> rfl
  simp only [subChar, h0, sub_zero]
  rw [Int.emod_eq_of_lt (by omega) (by exact_mod_cast h)]
  simp

theorem fixEntry_of_encofs_zero (sc : Bool) (e : FT_ENTRY) (h0 : e.encofs = 0)
    (h1 : e.fpos < U32) (h2 : e.fsize < U32) : fixEntry sc e = e := by
  cases e with
  | mk fname encofs fpos fsize =>
    simp only at h0 h1 h2
    subst h0
    simp only [fixEntry, subChar_zero sc _ h1, subChar_zero sc _ h2]

set_option maxRecDepth 100000 in
/-- A round trip in which the first file is empty, so the decryption loop ends at counter
`0` for every entry. -/
theorem roundtrip_in_bounds_example :
    ∃ a, pack true true [regFile (ascii "a.txt") [], regFile (ascii "b") [0x01]] = .ok a ∧
      dump quietEnv (some a) = ⟨.done, [(ascii "a.txt", []), (ascii "b", [0x01])]⟩ :=
  ⟨finish (encodeHeader dummyHeader ++ [0x01])
      [mkEntry (ascii "a.txt") 0x34 0, mkEntry (ascii "b") 0x34 1], by decide, by decide⟩

set_option maxRecDepth 100000 in
/-- C2 (whole content decrypted), evaluated on `xorArchive`: the file written for entry
`a` has its first byte decrypted only, `FE 02 03`, while the stored bytes XORed with the key
`0xFF` are `FE FD FC`; the decryption loop stopped at counter `1` because the size of
table entry `1` is `1`. -/
theorem dump_decrypts_prefix_only :
    dump quietEnv (some xorArchive) =
      ⟨.done, [(ascii "a", [0xFE, 0x02, 0x03]), (ascii "b", [0xFB])]⟩ ∧
    (dumpHeader quietEnv xorArchive).key = 0xFF ∧
    (dumpHeader quietEnv xorArchive).ft_pos = 0x38 ∧
    xorArchive.length = 0x38 + 2 * 0x30 ∧
    (dumpTable quietEnv xorArchive).map (fun e => (e.fpos, e.fsize)) = [(0x34, 3), (0x37, 1)] ∧
    ((xorArchive.drop 0x34).take 3).map (fun b => xorByte b 0xFF) = [0xFE, 0xFD, 0xFC] := by
  decide

set_option maxRecDepth 100000 in
/-- C3 (format-exempt content), evaluated on `oggArchive`: the file written for entry
`a.ogg` is `FE 02` while the stored bytes are `01 02`; `dump` XORs the first byte with the
key whatever the name of the entry. -/
theorem dump_xors_ogg :
    dump quietEnv (some oggArchive) =
      ⟨.done, [(ascii "a.ogg", [0xFE, 0x02]), (ascii "b", [0xFC])]⟩ ∧
    (dumpHeader quietEnv oggArchive).key = 0xFF ∧
    (dumpHeader quietEnv oggArchive).ft_pos = 0x37 ∧
    oggArchive.length = 0x37 + 2 * 0x30 ∧
    (dumpTable quietEnv oggArchive).map (fun e => (e.fpos, e.fsize)) = [(0x34, 2), (0x36, 1)] ∧
    (oggArchive.drop 0x34).take 2 = [0x01, 0x02] := by
  decide

set_option maxRecDepth 100000 in
/-- The content transform on a table of one entry of size `1`, key `0x5A` and the buffer
`41`, where the memory after the table holds zero bytes: the byte becomes `1B`, and `1B`
becomes `41` again. -/
theorem xorRun_single_entry_example :
    xorRun 0x5A (fun _ => 0) [mkEntry (ascii "a") 0x34 1] 0 [0x41] = ([0x1B], 1) ∧
    xorRun 0x5A (fun _ => 0) [mkEntry (ascii "a") 0x34 1] 0 [0x1B] = ([0x41], 1) := by
  decide

/-! ## Offsets and keys -/

theorem subChar_unsigned (sc : Bool) (x : Nat) (c : Byte) (h : sc = false ∨ c.val < 128) :
    subChar sc x c = (x + U32 - c.val) % U32 := by
  have hc := c.isLt
  have h0 : charToInt sc c = (c.val : Int) := by
    rcases h with h | h
    · simp [charToInt, h]
    · have : ¬ (128 ≤ c.val) := by omega
      simp [charToInt, this]
  simp only [subChar, h0, U32]
  omega

theorem subChar_signed (x : Nat) (c : Byte) (h : 128 ≤ c.val) :
    subChar true x c = (x + (256 - c.val)) % U32 := by
  have hc := c.isLt
  have h0 : charToInt true c = (c.val : Int) - 256 := by
    simp [charToInt, h]
  simp only [subChar, h0, U32]
  omega

/-- C4, as amended (offset resolution): for a table entry with 32-bit `stored_position` and
`stored_size` and bias byte `b`, lines 83-84 of `dump` leave the name and the bias as they
are and subtract the bias read as a C `char`: where `char` is unsigned, or `b` is in
`0..127`, the results are `(p - b) mod 2^32` and `(s - b) mod 2^32`; where `char` is signed
and `b` is in `128..255`, the bias counts as `b - 256` and the results are
`(p + 256 - b) mod 2^32` and `(s + 256 - b) mod 2^32`; with `b = 0` the entry is
unchanged. -/
theorem fixEntry_resolves (sc : Bool) (e : FT_ENTRY) (hp : e.fpos < U32) (hs : e.fsize < U32) :
    (fixEntry sc e).fname = e.fname ∧ (fixEntry sc e).encofs = e.encofs ∧
    (sc = false ∨ e.encofs.val < 128 →
      (fixEntry sc e).fpos = (e.fpos + U32 - e.encofs.val) % U32 ∧
      (fixEntry sc e).fsize = (e.fsize + U32 - e.encofs.val) % U32) ∧
    (sc = true ∧ 128 ≤ e.encofs.val →
      (fixEntry sc e).fpos = (e.fpos + (256 - e.encofs.val)) % U32 ∧
      (fixEntry sc e).fsize = (e.fsize + (256 - e.encofs.val)) % U32) ∧
    (e.encofs = 0 → fixEntry sc e = e) := by
  refine ⟨rfl, rfl, ?_, ?_, ?_⟩
  · intro h
    exact ⟨subChar_unsigned sc _ _ h, subChar_unsigned sc _ _ h⟩
  · rintro ⟨h1, h2⟩
    subst h1
    exact ⟨subChar_signed _ _ h2, subChar_signed _ _ h2⟩
  · intro h0
    exact fixEntry_of_encofs_zero sc e h0 hp hs

/-- Witness of the amended C4: an entry with bias `0x90` where `char` is signed. -/
theorem fixEntry_resolves_witness :
    (0x200 : Nat) < U32 ∧ (0x300 : Nat) < U32 ∧
    (fixEntry true ⟨[], 0x90, 0x200, 0x300⟩).fname = [] ∧
    (fixEntry true ⟨[], 0x90, 0x200, 0x300⟩).encofs = 0x90 ∧
    (true = false ∨ (0x90 : Byte).val < 128 →
      (fixEntry true ⟨[], 0x90, 0x200, 0x300⟩).fpos = (0x200 + U32 - (0x90 : Byte).val) % U32 ∧
      (fixEntry true ⟨[], 0x90, 0x200, 0x300⟩).fsize = (0x300 + U32 - (0x90 : Byte).val) % U32) ∧
    (true = true ∧ 128 ≤ (0x90 : Byte).val →
      (fixEntry true ⟨[], 0x90, 0x200, 0x300⟩).fpos = (0x200 + (256 - (0x90 : Byte).val)) % U32 ∧
      (fixEntry true ⟨[], 0x90, 0x200, 0x300⟩).fsize = (0x300 + (256 - (0x90 : Byte).val)) % U32) ∧
    ((0x90 : Byte) = 0 → fixEntry true ⟨[], 0x90, 0x200, 0x300⟩ = ⟨[], 0x90, 0x200, 0x300⟩) :=
  ⟨by decide, by decide, fixEntry_resolves true ⟨[], 0x90, 0x200, 0x300⟩ (by decide) (by decide)⟩

/-- C4 as stated fails where `char` is signed: for `stored_position = 0x100`,
`stored_size = 0x200` and bias byte `0x80`, `dump` resolves position and size to `0x180`
and `0x280`, not to `(0x100 - 0x80) mod 2^32 = 0x80` and `(0x200 - 0x80) mod 2^32 = 0x180`. -/
theorem fixEntry_signed_counterexample :
    (fixEntry true ⟨[], 0x80, 0x100, 0x200⟩).fpos = 0x180 ∧
    (fixEntry true ⟨[], 0x80, 0x100, 0x200⟩).fsize = 0x280 ∧
    (((0x100 : Int) - 0x80) % 4294967296).toNat = 0x80 ∧
    (((0x200 : Int) - 0x80) % 4294967296).toNat = 0x180 ∧
    ¬ ((fixEntry true ⟨[], 0x80, 0x100, 0x200⟩).fpos = (((0x100 : Int) - 0x80) % 4294967296).toNat ∧
       (fixEntry true ⟨[], 0x80, 0x100, 0x200⟩).fsize = (((0x200 : Int) - 0x80) % 4294967296).toNat) := by
  decide

theorem takeWhile_of_noNul (name : List Byte) (h : (0 : Byte) ∉ name) :
    name.takeWhile (fun b => b != 0) = name := by
  rw [List.takeWhile_eq_self_iff]
  intro x hx
  have : x ≠ 0 := fun hx0 => h (hx0 ▸ hx)
  simpa using this

theorem takeWhile_replicate_zero (k : Nat) :
    (List.replicate k (0 : Byte)).takeWhile (fun b => b != 0) = [] := by
  cases k with
  | zero => rfl
  | succ k => simp [List.replicate_succ]

theorem fname_mkEntry (name : List Byte) (pos size : Nat) (h : (0 : Byte) ∉ name) :
    (mkEntry name pos size).fname =
      name.take 38 ++ List.replicate (39 - min name.length 38) 0 := by
  have e1 : (38 - name.length) + 1 = 39 - min name.length 38 := by omega
  simp only [mkEntry, strncpy, padTo, takeWhile_of_noNul name h, List.append_assoc]
  rw [← List.replicate_succ', e1]

/-- The name `dump` reads at an entry `pack` wrote is the file name cut to 38 bytes,
whatever follows the entry in memory. -/
theorem nameAt_mkEntry (name : List Byte) (pos size : Nat) (todo : List FT_ENTRY)
    (after : List Byte) (h : (0 : Byte) ∉ name) :
    nameAt (mkEntry name pos size) todo after = name.take 38 := by
  have hf := fname_mkEntry name pos size h
  have hlen : (mkEntry name pos size).fname.length = 0x27 := (entryOk_mkEntry _ _ _).1
  have hk : 39 - min name.length 38 = (38 - min name.length 38) + 1 := by omega
  have hp : ∀ a ∈ name.take 38, (fun b : Byte => b != 0) a = true := by
    intro x hx
    have : x ≠ 0 := fun hx0 => h (hx0 ▸ List.mem_of_mem_take hx)
    simpa using this
  simp only [nameAt, encodeEntry, padTo_of_length hlen]
  rw [hf, hk, List.replicate_succ]
  simp only [List.append_assoc, List.cons_append]
  rw [List.takeWhile_append_of_pos hp]
  simp

theorem encodeTable_drop (es : List FT_ENTRY) (i : Nat) (e : FT_ENTRY) (h : es[i]? = some e) :
    (encodeTable es).drop (0x30 * i) = encodeEntry e ++ encodeTable (es.drop (i + 1)) := by
  induction es generalizing i with
  | nil => simp at h
  | cons x xs ih =>
    cases i with
    | zero => simp at h; subst h; simp [encodeTable]
    | succ i =>
      simp at h
      have e1 : 0x30 * (i + 1) = 0x30 + 0x30 * i := by omega
      simp only [encodeTable, List.drop_succ_cons]
      rw [e1, ← List.drop_drop, List.drop_left' (length_encodeEntry x)]
      exact ih i h

theorem take_encodeEntry (e : FT_ENTRY) (rest : List Byte) (h : e.fname.length = 0x27) :
    (encodeEntry e ++ rest).take 0x27 = e.fname := by
  have e1 : encodeEntry e ++ rest =
      padTo 0x27 e.fname ++ ([e.encofs] ++ le32 e.fpos ++ le32 e.fsize ++ rest) := by
    simp [encodeEntry]
  rw [e1, List.take_left' (length_padTo _ _), padTo_of_length h]

/-! ## The files `dump` opens -/

theorem dumpLoop_files (env : Env) (f : List Byte) (key : Byte) (todo : List FT_ENTRY) :
    ∀ (fixed : List FT_ENTRY) (out : List (List Byte × List Byte)),
      ∃ rest, (dumpLoop env f key fixed todo out).files = out ++ rest := by
  induction todo with
  | nil => intro fixed out; exact ⟨[], by simp [dumpLoop]⟩
  | cons e todo ih =>
    intro fixed out
    simp only [dumpLoop]
    split
    · split
      · exact ⟨_, rfl⟩
      · obtain ⟨rest, hr⟩ := ih (fixed ++ [fixEntry env.signedChar e])
          (out ++ [(_, _)])
        exact ⟨_, by rw [hr, List.append_assoc]⟩
    · exact ⟨[], by simp⟩

/-! ## The table `dump` reads -/

theorem fread_getD (old : Nat → Byte) (n : Nat) (f : List Byte) (pos j : Nat) (hj : j < n) :
    (fread old n f pos).getD j 0 = if pos + j < f.length then f.getD (pos + j) 0 else old j := by
  have hl : ((f.drop pos).take n).length = min n (f.length - pos) := by simp
  simp only [fread, List.getD_eq_getElem?_getD]
  by_cases h : pos + j < f.length
  · have hjl : j < ((f.drop pos).take n).length := by rw [hl]; omega
    rw [List.getElem?_append_left hjl]
    simp [h, List.getElem?_take, hj]
  · have hjl : ((f.drop pos).take n).length ≤ j := by rw [hl]; omega
    rw [List.getElem?_append_right hjl]
    have h2 : j - ((f.drop pos).take n).length < n - ((f.drop pos).take n).length := by omega
    simp only [h, if_false, List.getElem?_map]
    rw [List.getElem?_range' _ _ h2]
    simp only [Option.map_some', Option.getD_some]
    congr 1
    omega

theorem padTo_eq_map (n : Nat) (m : List Byte) :
    padTo n m = (List.range n).map (fun j => m.getD j 0) := by
  apply List.ext_getElem?
  intro j
  simp only [padTo, List.getElem?_map, List.getD_eq_getElem?_getD]
  by_cases hj : j < n
  · rw [List.getElem?_range hj]
    by_cases hm : j < m.length
    · rw [List.getElem?_append_left (by simp; omega)]
      simp [List.getElem?_take, hj, hm]
    · rw [List.getElem?_append_right (by simp; omega)]
      have hnone : m[j]? = none := List.getElem?_eq_none (by omega)
      have hmin : min n m.length = m.length := by omega
      simp only [hnone, List.length_take, hmin, Option.getD_none, List.getElem?_replicate]
      rw [if_pos (by omega)]
      simp [hnone]
  · have h1 : (List.range n)[j]? = none := List.getElem?_eq_none (by simp; omega)
    rw [h1]
    simp
    omega

theorem decodeEntry_congr (m1 m2 : List Byte)
    (h : ∀ j, j < 0x30 → m1.getD j 0 = m2.getD j 0) : decodeEntry m1 = decodeEntry m2 := by
  have hp : padTo 0x27 m1 = padTo 0x27 m2 := by
    rw [padTo_eq_map, padTo_eq_map]
    apply List.map_congr_left
    intro j hj
    exact h j (by have := List.mem_range.mp hj; omega)
  simp only [decodeEntry, rd32, hp, h 0x27 (by omega), h 0x28 (by omega), h (0x28 + 1) (by omega),
    h (0x28 + 2) (by omega), h (0x28 + 3) (by omega), h 0x2C (by omega), h (0x2C + 1) (by omega),
    h (0x2C + 2) (by omega), h (0x2C + 3) (by omega)]

theorem decodeTable_getElem? (n : Nat) (mem : List Byte) (i : Nat) (hi : i < n) :
    (decodeTable n mem)[i]? = some (decodeEntry (mem.drop (0x30 * i))) := by
  induction n generalizing mem i with
  | zero => omega
  | succ n ih =>
    cases i with
    | zero => simp [decodeTable]
    | succ i =>
      have e1 : 0x30 * (i + 1) = 0x30 + 0x30 * i := by omega
      simp only [decodeTable, List.getElem?_cons_succ]
      rw [ih _ i (by omega), List.drop_drop, e1]

/-- C10, as amended (table-entry count): for every archive with `file_count = F`, `dump`
decodes `F` table entries from `F * 0x30` bytes of table memory filled from the stream at
`table_offset`.  When the stream holds `F * 0x30` bytes from there, those bytes are the
table.  Entry `i` is decoded from the `0x30` stream bytes at `table_offset + 0x30 * i`
whenever the stream holds them all, and from what the block allocated for the table held
before when the stream holds none of them: a stream that is too short raises no error. -/
theorem dump_table_bytes (env : Env) (f : List Byte) :
    (dumpTable env f).length = (dumpHeader env f).fcount ∧
    ((dumpHeader env f).ft_pos + 0x30 * (dumpHeader env f).fcount ≤ f.length →
      dumpTable env f = decodeTable (dumpHeader env f).fcount
        ((f.drop (dumpHeader env f).ft_pos).take (0x30 * (dumpHeader env f).fcount))) ∧
    (∀ i, i < (dumpHeader env f).fcount →
      (dumpHeader env f).ft_pos + 0x30 * (i + 1) ≤ f.length →
      (dumpTable env f)[i]? =
        some (decodeEntry ((f.drop ((dumpHeader env f).ft_pos + 0x30 * i)).take 0x30))) ∧
    (∀ i, i < (dumpHeader env f).fcount →
      f.length ≤ (dumpHeader env f).ft_pos + 0x30 * i →
      (dumpTable env f)[i]? =
        some (decodeEntry ((List.range' (0x30 * i) 0x30).map env.oldTable))) := by
  refine ⟨length_decodeTable _ _, ?_, ?_, ?_⟩
  · intro h
    simp only [dumpTable]
    rw [fread_of_le _ h]
  · intro i hi hlen
    simp only [dumpTable]
    rw [decodeTable_getElem? _ _ i hi]
    congr 1
    apply decodeEntry_congr
    intro j hj
    have h1 := fread_getD env.oldTable (0x30 * (dumpHeader env f).fcount) f
      (dumpHeader env f).ft_pos (0x30 * i + j) (by omega)
    rw [if_pos (by omega)] at h1
    simp only [List.getD_eq_getElem?_getD, List.getElem?_drop, List.getElem?_take] at h1 ⊢
    rw [h1, if_pos hj, Nat.add_assoc]
  · intro i hi hlen
    simp only [dumpTable]
    rw [decodeTable_getElem? _ _ i hi]
    congr 1
    apply decodeEntry_congr
    intro j hj
    have h1 := fread_getD env.oldTable (0x30 * (dumpHeader env f).fcount) f
      (dumpHeader env f).ft_pos (0x30 * i + j) (by omega)
    rw [if_neg (by omega)] at h1
    simp only [List.getD_eq_getElem?_getD, List.getElem?_drop, List.getElem?_map] at h1 ⊢
    rw [h1, List.getElem?_range' _ _ hj]
    simp

set_option maxRecDepth 100000 in
/-- C10 as stated fails: `shortArchive` announces one table entry at `0x34` and ends there,
so the stream holds none of the `0x30` bytes of its table; run where the block allocated
for the table still holds an earlier entry named `x`, `dump` reports no error: it
ends normally and has created the file `x`.  Run where that block holds zero bytes, it
tries to open a file with the empty name. -/
theorem dump_short_table_counterexample :
    (dumpHeader staleEnv shortArchive).fcount = 1 ∧
    (dumpHeader staleEnv shortArchive).ft_pos = 0x34 ∧
    shortArchive.length = 0x34 ∧
    shortArchive.length < (dumpHeader staleEnv shortArchive).ft_pos
      + 0x30 * (dumpHeader staleEnv shortArchive).fcount ∧
    dump staleEnv (some shortArchive) = ⟨.done, [(ascii "x", [])]⟩ ∧
    dump quietEnv (some shortArchive) = ⟨.fileOpenError 0, []⟩ := by
  decide


/-! ## The round trip -/

theorem entriesAt_append (pos : Nat) (pre rest : List DirEnt) :
    entriesAt pos (pre ++ rest) = entriesAt pos pre ++ entriesAt (pos + totalSize pre) rest := by
  induction pre generalizing pos with
  | nil => simp [entriesAt, totalSize]
  | cons d ds ih => simp [entriesAt, totalSize, ih, Nat.add_assoc]

theorem totalSize_append (pre rest : List DirEnt) :
    totalSize (pre ++ rest) = totalSize pre + totalSize rest := by
  induction pre with
  | nil => simp [totalSize]
  | cons d ds ih => simp [totalSize, ih, Nat.add_assoc]

theorem payload_append (pre rest : List DirEnt) :
    payload (pre ++ rest) = payload pre ++ payload rest := by
  induction pre with
  | nil => simp [payload]
  | cons d ds ih => simp [payload, ih]

/-- The loop of `dump` over the table of a packed directory, from any entry on: it runs to
its end and writes the remaining files, each under its name cut to 38 bytes and with its
bytes.  The key of such an archive is `0`, so the rounds of line 97 change no byte, however
many they are. -/
theorem dumpLoop_packed (env : Env) (files : List DirEnt) (h : HEADER)
    (hsize : archiveSize files < U32)
    (hname : ∀ d ∈ files, (0 : Byte) ∉ d.d_name)
    (hcan : ∀ d ∈ files, env.canOpen (d.d_name.take 38) = true) :
    ∀ (rest pre : List DirEnt) (out : List (List Byte × List Byte)), files = pre ++ rest →
      dumpLoop env (encodeHeader h ++ (payload files ++ encodeTable (entriesAt 0x34 files))) 0
          (entriesAt 0x34 pre) (entriesAt (0x34 + totalSize pre) rest) out
        = ⟨.done, out ++ rest.map (fun d => (d.d_name.take 38, d.data))⟩ := by
  intro rest
  induction rest with
  | nil =>
    intro pre out _
    simp [entriesAt, dumpLoop]
  | cons d rest ih =>
    intro pre out hfiles
    have hd : d ∈ files := by rw [hfiles]; simp
    have hnul := hname d hd
    have hts : totalSize files = totalSize pre + (d.data.length + totalSize rest) := by
      rw [hfiles, totalSize_append]; rfl
    simp only [archiveSize] at hsize
    have hpos : (0x34 + totalSize pre) % U32 = 0x34 + totalSize pre :=
      Nat.mod_eq_of_lt (by omega)
    have hsz : d.data.length % U32 = d.data.length := Nat.mod_eq_of_lt (by omega)
    have hfix : fixEntry env.signedChar (mkEntry d.d_name (0x34 + totalSize pre) d.data.length)
        = mkEntry d.d_name (0x34 + totalSize pre) d.data.length :=
      fixEntry_of_encofs_zero _ _ rfl (entryOk_mkEntry _ _ _).2.1 (entryOk_mkEntry _ _ _).2.2
    have hbuf : ∀ old : Nat → Byte,
        fread old d.data.length
          (encodeHeader h ++ (payload files ++ encodeTable (entriesAt 0x34 files)))
          (0x34 + totalSize pre) = d.data := by
      intro old
      have hsplit : encodeHeader h ++ (payload files ++ encodeTable (entriesAt 0x34 files)) =
          (encodeHeader h ++ payload pre) ++
            (d.data ++ (payload rest ++ encodeTable (entriesAt 0x34 files))) := by
        rw [hfiles, payload_append]
        simp [payload]
      have := fread_prefix old (encodeHeader h ++ payload pre) d.data
        (payload rest ++ encodeTable (entriesAt 0x34 files))
      rw [← hsplit] at this
      simpa [length_encodeHeader, length_payload] using this
    have hstep := ih (pre ++ [d]) (out ++ [(d.d_name.take 38, d.data)]) (by rw [hfiles]; simp)
    have hE : entriesAt 0x34 (pre ++ [d]) =
        entriesAt 0x34 pre ++ [mkEntry d.d_name (0x34 + totalSize pre) d.data.length] := by
      rw [entriesAt_append]; rfl
    have hT : 0x34 + totalSize (pre ++ [d]) = 0x34 + totalSize pre + d.data.length := by
      rw [totalSize_append]; simp [totalSize]; omega
    rw [hE, hT] at hstep
    have hfs : (mkEntry d.d_name (0x34 + totalSize pre) d.data.length).fsize = d.data.length := hsz
    have hfp : (mkEntry d.d_name (0x34 + totalSize pre) d.data.length).fpos
        = 0x34 + totalSize pre := hpos
    simp only [entriesAt, dumpLoop, hfix, nameAt_mkEntry _ _ _ _ _ hnul, hcan d hd, if_true,
      xorRun_zero, hfs, hfp, hbuf]
    rw [if_neg (fun hh => hh.1 rfl), hstep]
    simp

/-! ## The output directory after a run -/

theorem onDisk_eq_none (files : List (List Byte × List Byte)) (n : List Byte) :
    onDisk files n = none ↔ ∀ p ∈ files, p.1 ≠ n := by
  induction files with
  | nil => simp [onDisk]
  | cons p rest ih =>
    obtain ⟨m, c⟩ := p
    simp only [onDisk]
    cases hr : onDisk rest n with
    | some x =>
      simp only [false_iff, reduceCtorEq]
      intro hall
      have := ih.2 (fun q hq => hall q (List.mem_cons_of_mem _ hq))
      rw [hr] at this
      cases this
    | none =>
      have hrest := ih.1 hr
      by_cases hm : m = n
      · simp only [hm, if_true, false_iff, reduceCtorEq]
        intro hall
        exact hall (n, c) (List.mem_cons_self _ _) rfl
      · simp only [hm, if_false, true_iff]
        intro q hq
        rcases List.mem_cons.1 hq with rfl | hq
        · exact hm
        · exact hrest q hq

/-- A file on disk holds the bytes of the last file written under its name. -/
theorem onDisk_some (files : List (List Byte × List Byte)) (n x : List Byte)
    (h : onDisk files n = some x) :
    ∃ k, files[k]? = some (n, x) ∧
      ∀ (k2 : Nat) (q : List Byte × List Byte), k < k2 → files[k2]? = some q → q.1 ≠ n := by
  induction files with
  | nil => simp [onDisk] at h
  | cons p rest ih =>
    obtain ⟨m, c⟩ := p
    simp only [onDisk] at h
    cases hr : onDisk rest n with
    | some y =>
      rw [hr] at h
      simp only [Option.some.injEq] at h
      subst h
      obtain ⟨k, hk, hlast⟩ := ih hr
      refine ⟨k + 1, by simpa using hk, ?_⟩
      intro k2 q hlt hq
      cases k2 with
      | zero => omega
      | succ k2 =>
        simp only [List.getElem?_cons_succ] at hq
        exact hlast k2 q (by omega) hq
    | none =>
      rw [hr] at h
      by_cases hm : m = n
      · simp only [hm, if_true, Option.some.injEq] at h
        subst h
        subst hm
        refine ⟨0, List.getElem?_cons_zero, ?_⟩
        intro k2 q hlt hq
        cases k2 with
        | zero => omega
        | succ k2 =>
          simp only [List.getElem?_cons_succ] at hq
          exact (onDisk_eq_none rest m).1 hr q (List.getElem?_mem hq)
      · simp [hm] at h

theorem onDisk_last (files : List (List Byte × List Byte)) (k : Nat) (n x : List Byte)
    (hk : files[k]? = some (n, x))
    (hlast : ∀ (k2 : Nat) (q : List Byte × List Byte), k < k2 → files[k2]? = some q → q.1 ≠ n) :
    onDisk files n = some x := by
  cases h : onDisk files n with
  | none =>
    exact absurd rfl ((onDisk_eq_none files n).1 h (n, x) (List.getElem?_mem hk))
  | some y =>
    obtain ⟨k1, hk1, hlast1⟩ := onDisk_some files n y h
    rcases Nat.lt_trichotomy k k1 with hlt | heq | hgt
    · exact absurd rfl (hlast k1 _ hlt hk1)
    · subst heq
      rw [hk] at hk1
      simp only [Option.some.injEq, Prod.mk.injEq, true_and] at hk1
      rw [hk1]
    · exact absurd rfl (hlast1 k _ hgt hk)

theorem onDisk_of_nodup (files : List (List Byte × List Byte))
    (hnd : (files.map Prod.fst).Nodup) (n x : List Byte) (hm : (n, x) ∈ files) :
    onDisk files n = some x := by
  obtain ⟨k, hk⟩ := List.getElem?_of_mem hm
  refine onDisk_last files k n x hk ?_
  intro k2 q hlt hq heq
  have h1 : (files.map Prod.fst)[k]? = some n := by simp [hk]
  have h2 : (files.map Prod.fst)[k2]? = some n := by simp [hq, heq]
  have hlen : k2 < (files.map Prod.fst).length := by
    by_contra hge
    rw [List.getElem?_eq_none (by omega)] at h2
    cases h2
  have hlen1 : k < (files.map Prod.fst).length := by omega
  rw [List.getElem?_eq_getElem hlen] at h2
  rw [List.getElem?_eq_getElem hlen1] at h1
  have := (List.Nodup.getElem_inj_iff hnd).1
    ((Option.some.inj h1).trans (Option.some.inj h2).symm)
  omega

/-! ## Packing, then dumping -/

/-- The run of `dump` on the archive of a directory: when every regular file can be read,
no name holds a zero byte, the archive is smaller than `2^32` bytes, the output directory
can be entered and accepts the names cut to 38 bytes, `dump` runs to its end and writes one
file per regular file, in order, under the name cut to 38 bytes and with the same bytes. -/
theorem dump_pack (env : Env) (dir : List DirEnt)
    (hopen : ∀ d ∈ dir, d.isReg = true → d.opens = true)
    (hname : ∀ d ∈ regs dir, (0 : Byte) ∉ d.d_name)
    (hcan : ∀ d ∈ regs dir, env.canOpen (d.d_name.take 38) = true)
    (hsize : archiveSize (regs dir) < U32)
    (hmk : env.mkdirFails = false) (hch : env.chdirFails = false) :
    ∃ a, pack true true dir = .ok a ∧
      dump env (some a) = ⟨.done, (regs dir).map (fun d => (d.d_name.take 38, d.data))⟩ := by
  obtain ⟨a, hp, ha, hh, ht⟩ := pack_view env dir hopen hsize
  refine ⟨a, hp, ?_⟩
  have hkey : (dumpHeader env a).key = 0 := by rw [hh]
  simp only [dump, hmk, hch, Bool.or_self, Bool.false_eq_true, if_false, ht, hkey]
  have := dumpLoop_packed env (regs dir)
    ⟨dummyHeader.magic, 0, (regs dir).length, 0x34 + totalSize (regs dir)⟩ hsize hname hcan
    (regs dir) [] [] rfl
  rw [← ha] at this
  simpa [entriesAt, totalSize] using this

/-- C1 (round trip of `pack` then `dump`): for every directory whose regular files can be
read, have pairwise distinct names of at most 38 bytes without zero byte that the output
directory accepts, and give an archive smaller than `2^32` bytes, and for every content of
the memory `dump` reads without having written it, `dump` of the archive `pack` produces
runs to its end and writes one file per regular file, under the same name and with the
same bytes; the output directory, empty before, then holds exactly these `N` files. -/
theorem pack_dump_roundtrip (env : Env) (dir : List DirEnt)
    (hopen : ∀ d ∈ dir, d.isReg = true → d.opens = true)
    (hname : ∀ d ∈ regs dir, (0 : Byte) ∉ d.d_name ∧ d.d_name.length ≤ 38)
    (hdist : ((regs dir).map (fun d => d.d_name)).Nodup)
    (hcan : ∀ d ∈ regs dir, env.canOpen d.d_name = true)
    (hsize : archiveSize (regs dir) < U32)
    (hmk : env.mkdirFails = false) (hch : env.chdirFails = false) :
    ∃ a, pack true true dir = .ok a ∧
      dump env (some a) = ⟨.done, (regs dir).map (fun d => (d.d_name, d.data))⟩ ∧
      (dump env (some a)).files.length = (regs dir).length ∧
      ((dump env (some a)).files.map Prod.fst).Nodup ∧
      (∀ d ∈ regs dir, onDisk (dump env (some a)).files d.d_name = some d.data) ∧
      (∀ n, onDisk (dump env (some a)).files n ≠ none → ∃ d ∈ regs dir, d.d_name = n) := by
  have htake : ∀ d ∈ regs dir, d.d_name.take 38 = d.d_name :=
    fun d hd => List.take_of_length_le (hname d hd).2
  obtain ⟨a, hp, hdump⟩ := dump_pack env dir hopen (fun d hd => (hname d hd).1)
    (fun d hd => by rw [htake d hd]; exact hcan d hd) hsize hmk hch
  have hmap : (regs dir).map (fun d => (d.d_name.take 38, d.data))
      = (regs dir).map (fun d => (d.d_name, d.data)) :=
    List.map_congr_left (fun d hd => by rw [htake d hd])
  rw [hmap] at hdump
  have hfst : ((regs dir).map (fun d => (d.d_name, d.data))).map Prod.fst
      = (regs dir).map (fun d => d.d_name) := by
    simp [List.map_map, Function.comp_def]
  refine ⟨a, hp, hdump, ?_, ?_, ?_, ?_⟩
  · rw [hdump]; simp
  · rw [hdump]; simp only; rw [hfst]; exact hdist
  · intro d hd
    rw [hdump]
    exact onDisk_of_nodup _ (by rw [hfst]; exact hdist) _ _
      (List.mem_map.2 ⟨d, hd, rfl⟩)
  · intro n hn
    rw [hdump] at hn
    have hex : ¬ ∀ p ∈ (regs dir).map (fun d => (d.d_name, d.data)), p.1 ≠ n :=
      fun hall => hn ((onDisk_eq_none _ n).2 hall)
    by_contra hno
    apply hex
    intro p hp2 heq
    obtain ⟨d, hd, rfl⟩ := List.mem_map.1 hp2
    exact hno ⟨d, hd, heq⟩

set_option maxRecDepth 100000 in
/-- Witness of C1: the end-to-end example.  `pack` writes `exampleArchive`, with
`file_count = 2` and `key = 0`, and `dump` of it writes `a.txt` holding `"hi"` and `b.ogg`
holding `DE AD BE EF`. -/
theorem pack_dump_roundtrip_witness :
    pack true true exampleDir = .ok exampleArchive ∧
    (dumpHeader quietEnv exampleArchive).fcount = 2 ∧
    (dumpHeader quietEnv exampleArchive).key = 0 ∧
    dump quietEnv (some exampleArchive) =
      ⟨.done, [(ascii "a.txt", ascii "hi"), (ascii "b.ogg", [0xDE, 0xAD, 0xBE, 0xEF])]⟩ ∧
    ∃ a, pack true true exampleDir = .ok a ∧
      dump quietEnv (some a) = ⟨.done, (regs exampleDir).map (fun d => (d.d_name, d.data))⟩ ∧
      (dump quietEnv (some a)).files.length = (regs exampleDir).length ∧
      ((dump quietEnv (some a)).files.map Prod.fst).Nodup ∧
      (∀ d ∈ regs exampleDir, onDisk (dump quietEnv (some a)).files d.d_name = some d.data) ∧
      (∀ n, onDisk (dump quietEnv (some a)).files n ≠ none →
        ∃ d ∈ regs exampleDir, d.d_name = n) :=
  ⟨by decide, by decide, by decide, by decide,
    pack_dump_roundtrip quietEnv exampleDir (by decide) (by decide) (by decide) (by decide)
      (by decide) rfl rfl⟩

/-- A directory of two files, the second with a name of 50 characters. -/
theorem longDir_names :
    (regs [regFile (ascii "a") (ascii "hi"), regFile longName [0x01]]).map
      (fun d => d.d_name.length) = [1, 50] := by
  decide

/-- C9 (name truncation): when every regular file of the directory can be read and no name
holds a zero byte, `pack` produces an archive in which the 39-byte name field of the `i`-th
table entry is the first `min(length, 38)` bytes of the `i`-th file name followed by zero
bytes; its last byte is `0`, the string that starts at the field ends after that prefix
whatever follows the field, and for a name of 50 characters the prefix has 38 bytes and
differs from the name.  When moreover the archive is smaller than `2^32` bytes and the
output directory can be entered and accepts the prefixes, `dump` of the archive runs to its
end and creates, for every file, a file named by the prefix, holding the bytes of the
file. -/
theorem pack_truncates_names (env : Env) (dir : List DirEnt)
    (hopen : ∀ d ∈ dir, d.isReg = true → d.opens = true)
    (hname : ∀ d ∈ dir, (0 : Byte) ∉ d.d_name) :
    ∃ a, pack true true dir = .ok a ∧
      (∀ (i : Nat) (d : DirEnt), (regs dir)[i]? = some d →
        (a.drop (0x34 + totalSize (regs dir) + 0x30 * i)).take 0x27 =
          d.d_name.take 38 ++ List.replicate (39 - min d.d_name.length 38) 0 ∧
        ((a.drop (0x34 + totalSize (regs dir) + 0x30 * i)).take 0x27).getLast? = some 0 ∧
        (∀ rest : List Byte,
          ((a.drop (0x34 + totalSize (regs dir) + 0x30 * i)).take 0x27 ++ rest).takeWhile
            (fun b => b != 0) = d.d_name.take 38) ∧
        (d.d_name.length = 50 →
          (d.d_name.take 38).length = 38 ∧ d.d_name.take 38 ≠ d.d_name)) ∧
      (archiveSize (regs dir) < U32 →
        env.mkdirFails = false → env.chdirFails = false →
        (∀ d ∈ regs dir, env.canOpen (d.d_name.take 38) = true) →
        dump env (some a) = ⟨.done, (regs dir).map (fun d => (d.d_name.take 38, d.data))⟩ ∧
        ∀ (i : Nat) (d : DirEnt), (regs dir)[i]? = some d →
          ((dump env (some a)).files[i]?).map Prod.fst = some (d.d_name.take 38)) := by
  obtain ⟨a, ha⟩ : ∃ a : List Byte, a = encodeHeader
      ⟨dummyHeader.magic, 0, (regs dir).length % U32, (0x34 + totalSize (regs dir)) % U32⟩
        ++ (payload (regs dir) ++ encodeTable (entriesAt 0x34 (regs dir))) := ⟨_, rfl⟩
  have hp : pack true true dir = .ok a := by rw [ha]; exact pack_eq dir hopen
  have hreg : ∀ d ∈ regs dir, (0 : Byte) ∉ d.d_name :=
    fun d hm => hname d (List.mem_of_mem_filter hm)
  refine ⟨a, hp, ?_, ?_⟩
  · intro i d hd
    have hnul := hreg d (List.getElem?_mem hd)
    have hent : (entriesAt 0x34 (regs dir))[i]? =
        some (mkEntry d.d_name (0x34 + totalSize ((regs dir).take i)) d.data.length) := by
      rw [entriesAt_getElem?, hd]; rfl
    have hfield : (a.drop (0x34 + totalSize (regs dir) + 0x30 * i)).take 0x27 =
        (mkEntry d.d_name (0x34 + totalSize ((regs dir).take i)) d.data.length).fname := by
      rw [ha, ← List.append_assoc, ← List.drop_drop,
        List.drop_left' (by simp [length_encodeHeader, length_payload]),
        encodeTable_drop _ i _ hent]
      exact take_encodeEntry _ _ (entryOk_mkEntry _ _ _).1
    rw [hfield]
    refine ⟨fname_mkEntry _ _ _ hnul, ?_, ?_, ?_⟩
    · simp [mkEntry]
    · intro rest
      have hk : 39 - min d.d_name.length 38 = (38 - min d.d_name.length 38) + 1 := by omega
      have hpos : ∀ x ∈ d.d_name.take 38, (fun b : Byte => b != 0) x = true := by
        intro x hx
        have : x ≠ 0 := fun hx0 => hnul (hx0 ▸ List.mem_of_mem_take hx)
        simpa using this
      rw [fname_mkEntry _ _ _ hnul, hk, List.replicate_succ]
      simp only [List.append_assoc, List.cons_append]
      rw [List.takeWhile_append_of_pos hpos]
      simp
    · intro h50
      have hl : (d.d_name.take 38).length = 38 := by simp [h50]
      refine ⟨hl, ?_⟩
      intro heq
      rw [heq] at hl
      omega
  · intro hsize hmk hch hcan
    obtain ⟨a1, hp1, hdump⟩ := dump_pack env dir hopen hreg hcan hsize hmk hch
    have haa : a1 = a := PackResult.ok.inj (hp1.symm.trans hp)
    rw [haa] at hdump
    refine ⟨hdump, ?_⟩
    intro i d hd
    rw [hdump]
    simp [hd]

set_option maxRecDepth 100000 in
/-- Witness of C9: a directory holding the file `a` and, after it, a file with a name of
50 characters.  `dump` of the archive creates `a` and a file named by the first 38
characters of the long name. -/
theorem pack_truncates_names_witness :
    longName.length = 50 ∧
    ∃ a, pack true true [regFile (ascii "a") (ascii "hi"), regFile longName [0x01]] = .ok a ∧
      (a.drop (0x34 + 3 + 0x30 * 1)).take 0x27 =
        ascii "0123456789abcdefghijklmnopqrstuvwxyzAB" ++ [0] ∧
      dump quietEnv (some a) =
        ⟨.done, [(ascii "a", ascii "hi"),
          (ascii "0123456789abcdefghijklmnopqrstuvwxyzAB", [0x01])]⟩ := by
  obtain ⟨a, hp, hfield, hdump⟩ := pack_truncates_names quietEnv
    [regFile (ascii "a") (ascii "hi"), regFile longName [0x01]] (by decide) (by decide)
  refine ⟨by decide, a, hp, ?_, ?_⟩
  · have := (hfield 1 (regFile longName [0x01]) rfl).1
    exact this.trans (by decide)
  · exact (hdump (by decide) rfl rfl (by decide)).1.trans (by decide)


/-! ## The header `pack` writes -/

theorem le32_mod (n : Nat) : le32 (n % U32) = le32 n := by
  simp only [le32, U32, byteOf]
  refine congrArg₂ List.cons (Fin.ext ?_) (congrArg₂ List.cons (Fin.ext ?_)
    (congrArg₂ List.cons (Fin.ext ?_) (congrArg₂ List.cons (Fin.ext ?_) rfl))) <;>
  simp only <;> omega

/-- C11 (header written by `pack`): when every regular file of the directory can be read,
`pack` produces an archive whose first `0x34` bytes are the 8 bytes `"PackPlus"`, 35 zero
bytes, the key byte `0` at offset `0x2B`, the number of regular files as a 32-bit unsigned
integer at offset `0x2C` and `0x34` plus the sum of their sizes, the offset of the table,
as a 32-bit unsigned integer at offset `0x30`, with nothing between the fields. -/
theorem pack_header_bytes (dir : List DirEnt)
    (hopen : ∀ d ∈ dir, d.isReg = true → d.opens = true) :
    ∃ a, pack true true dir = .ok a ∧
      a.take 0x34 = ascii "PackPlus" ++ List.replicate 35 0 ++ [0]
        ++ le32 (regs dir).length ++ le32 (0x34 + totalSize (regs dir)) ∧
      a.take 0x2B = ascii "PackPlus" ++ List.replicate 35 0 ∧
      (a.drop 0x2B).take 1 = [0] ∧
      (a.drop 0x2C).take 4 = le32 (regs dir).length ∧
      rd32 a 0x2C = (regs dir).length % U32 ∧
      (a.drop 0x30).take 4 = le32 (0x34 + totalSize (regs dir)) ∧
      rd32 a 0x30 = (0x34 + totalSize (regs dir)) % U32 := by
  obtain ⟨rest, hrest⟩ : ∃ rest : List Byte,
      rest = payload (regs dir) ++ encodeTable (entriesAt 0x34 (regs dir)) := ⟨_, rfl⟩
  obtain ⟨a, ha⟩ : ∃ a : List Byte, a = encodeHeader
      ⟨dummyHeader.magic, 0, (regs dir).length % U32, (0x34 + totalSize (regs dir)) % U32⟩
        ++ rest := ⟨_, rfl⟩
  have hp : pack true true dir = .ok a := by rw [ha, hrest]; exact pack_eq dir hopen
  have hm : padTo 0x2B dummyHeader.magic = ascii "PackPlus" ++ List.replicate 35 0 := by
    decide
  have hd := decodeHeader_encodeHeader
    ⟨dummyHeader.magic, 0, (regs dir).length % U32, (0x34 + totalSize (regs dir)) % U32⟩ rest
  rw [← ha] at hd
  have hshape : a = (ascii "PackPlus" ++ List.replicate 35 0) ++ ([(0 : Byte)] ++
      (le32 (regs dir).length ++ (le32 (0x34 + totalSize (regs dir)) ++ rest))) := by
    rw [ha]
    simp only [encodeHeader, hm, le32_mod, List.append_assoc]
  have hl : (ascii "PackPlus" ++ List.replicate 35 (0 : Byte)).length = 0x2B := by decide
  refine ⟨a, hp, ?_, ?_, ?_, ?_, ?_, ?_, ?_⟩
  · have : a = (ascii "PackPlus" ++ List.replicate 35 0 ++ [0]
        ++ le32 (regs dir).length ++ le32 (0x34 + totalSize (regs dir))) ++ rest := by
      rw [hshape]; simp only [List.append_assoc]
    rw [this]
    exact List.take_left' (by simp [length_le32]; decide)
  · rw [hshape]
    exact List.take_left' hl
  · rw [hshape, List.drop_left' hl]
    rfl
  · have : a = (ascii "PackPlus" ++ List.replicate 35 0 ++ [0]) ++
        (le32 (regs dir).length ++ (le32 (0x34 + totalSize (regs dir)) ++ rest)) := by
      rw [hshape]; simp only [List.append_assoc]
    rw [this, List.drop_left' (by decide)]
    exact List.take_left' (length_le32 _)
  · have h1 : (decodeHeader a).fcount = rd32 a 0x2C := rfl
    rw [← h1, hd]
    exact Nat.mod_mod _ _
  · have : a = (ascii "PackPlus" ++ List.replicate 35 0 ++ [0] ++ le32 (regs dir).length) ++
        (le32 (0x34 + totalSize (regs dir)) ++ rest) := by
      rw [hshape]; simp only [List.append_assoc]
    rw [this, List.drop_left' (by simp [length_le32]; decide)]
    exact List.take_left' (length_le32 _)
  · have h1 : (decodeHeader a).ft_pos = rd32 a 0x30 := rfl
    rw [← h1, hd]
    exact Nat.mod_mod _ _

set_option maxRecDepth 100000 in
/-- Witness of C11 on the directory of the end-to-end example. -/
theorem pack_header_bytes_witness :
    (∀ d ∈ exampleDir, d.isReg = true → d.opens = true) ∧
    ∃ a, pack true true exampleDir = .ok a ∧
      a.take 0x34 = ascii "PackPlus" ++ List.replicate 35 0 ++ [0]
        ++ le32 (regs exampleDir).length ++ le32 (0x34 + totalSize (regs exampleDir)) ∧
      a.take 0x2B = ascii "PackPlus" ++ List.replicate 35 0 ∧
      (a.drop 0x2B).take 1 = [0] ∧
      (a.drop 0x2C).take 4 = le32 (regs exampleDir).length ∧
      rd32 a 0x2C = (regs exampleDir).length % U32 ∧
      (a.drop 0x30).take 4 = le32 (0x34 + totalSize (regs exampleDir)) ∧
      rd32 a 0x30 = (0x34 + totalSize (regs exampleDir)) % U32 :=
  ⟨by decide, pack_header_bytes exampleDir (by decide)⟩


/-! ## Indices -/

theorem xorFrom_tableIndex (key : Byte) (t : List FT_ENTRY) (i j : Nat) (buf : List Byte) :
    xorFrom key t i buf = .error (.tableIndex j) ↔
      j = i + t.length ∧ (i + t.length) ∈ xorReads t i buf.length := by
  induction t generalizing i buf with
  | nil =>
    simp only [xorFrom, xorReads, List.length_nil, Nat.add_zero, List.mem_singleton, and_true,
      Except.error.injEq, Fault.tableIndex.injEq]
    exact eq_comm
  | cons e rest ih =>
    simp only [xorFrom, xorReads, List.length_cons]
    by_cases h1 : i < e.fsize
    · by_cases h2 : i < buf.length
      · simp only [h1, h2, if_true]
        rw [ih (i + 1) _, List.length_set]
        have e1 : i + 1 + rest.length = i + (rest.length + 1) := by omega
        rw [e1]
        constructor
        · rintro ⟨ha, hb⟩
          exact ⟨ha, List.mem_cons_of_mem _ hb⟩
        · rintro ⟨ha, hb⟩
          refine ⟨ha, ?_⟩
          rcases List.mem_cons.mp hb with hb | hb
          · omega
          · exact hb
      · simp only [h1, h2, if_true, if_false, List.mem_singleton]
        constructor
        · intro h; cases h
        · rintro ⟨-, hb⟩; omega
    · simp only [h1, if_false, List.mem_singleton]
      constructor
      · intro h; cases h
      · rintro ⟨-, hb⟩; omega

set_option maxRecDepth 100000 in
/-- C15 (table indexing in the decryption loop), evaluated on the archive of the end-to-end
example, whose `file_count` is `2`: while entry `0` is extracted, with the two bytes of
`a.txt` in the buffer, the loop reads the size of the table entries `0`, `1` and `2`, and
`2` is not below `file_count`. -/
theorem xorLoop_reads_past_table :
    (dumpHeader quietEnv exampleArchive).fcount = 2 ∧
    (dumpTable quietEnv exampleArchive).length = 2 ∧
    (dumpTable quietEnv exampleArchive).map (fun e => e.fsize) = [2, 4] ∧
    (dumpTable quietEnv exampleArchive).map (fixEntry true) = dumpTable quietEnv exampleArchive ∧
    xorReads (dumpTable quietEnv exampleArchive) 0 2 = [0, 1, 2] ∧
    ¬ (∀ i ∈ xorReads (dumpTable quietEnv exampleArchive) 0 2,
        i < (dumpHeader quietEnv exampleArchive).fcount) ∧
    xorLoop 0 (dumpTable quietEnv exampleArchive) (ascii "hi") = .error (.tableIndex 2) := by
  decide

set_option maxRecDepth 100000 in
/-- The same loop as the program runs it: the bound tested at counter `2` is what the
memory after the table holds.  Where that memory holds `0` the loop ends at counter `2`;
where it holds `7` the loop goes on to counter `7`.  The key of the archive is `0`, so the
buffer is left as it was in both runs. -/
theorem xorRun_past_table_example :
    xorRun 0 (fun _ => 0) (dumpTable quietEnv exampleArchive) 0 (ascii "hi") = (ascii "hi", 2) ∧
    xorRun 0 (fun _ => 7) (dumpTable quietEnv exampleArchive) 0 (ascii "hi") = (ascii "hi", 7) := by
  decide

theorem tableWrites_lt (dir : List DirEnt) :
    ∀ (ft_count ft_max cap : Nat), ft_count < ft_max → ft_max ≤ cap →
      ∀ p ∈ tableWrites dir ft_count ft_max cap, p.1 < p.2 := by
  induction dir with
  | nil => intro _ _ _ _ _ p hp; simp [tableWrites] at hp
  | cons d ds ih =>
    intro ft_count ft_max cap h1 h2 p hp
    by_cases hr : d.isReg = true
    · by_cases hm : ft_count + 1 = ft_max
      · simp only [tableWrites, hr, hm, if_true, List.mem_cons] at hp
        rcases hp with hp | hp
        · subst hp; simp only; omega
        · exact ih _ _ _ (by omega) (le_refl _) p hp
      · simp only [tableWrites, hr, hm, if_true, if_false, List.mem_cons] at hp
        rcases hp with hp | hp
        · subst hp; simp only; omega
        · exact ih _ _ _ (by omega) h2 p hp
    · simp only [tableWrites, hr] at hp
      exact ih _ _ _ h1 h2 p hp

theorem packLoop_no_fault (dir : List DirEnt) :
    ∀ (out : List Byte) (ftable : List FT_ENTRY) (ft_max cap i : Nat),
      ftable.length < ft_max → ft_max ≤ cap →
      packLoop dir out ftable ft_max cap ≠ .fault i := by
  induction dir with
  | nil => intro out ftable ft_max cap i _ _ h; simp [packLoop] at h
  | cons d ds ih =>
    intro out ftable ft_max cap i h1 h2
    by_cases hr : d.isReg = true
    · by_cases ho : d.opens = true
      · by_cases hm : ftable.length + 1 = ft_max
        · have hc : ftable.length < ft_max * 2 := by omega
          simp only [packLoop, hr, ho, hm, if_true, hc]
          exact ih _ _ _ _ i (by simp; omega) (le_refl _)
        · have hc : ftable.length < cap := by omega
          simp only [packLoop, hr, ho, hm, if_true, if_false, hc]
          exact ih _ _ _ _ i (by simp; omega) h2
      · by_cases hm : ftable.length + 1 = ft_max
        · have hc : ftable.length < ft_max * 2 := by omega
          simp [packLoop, hr, ho, hm, hc]
        · have hc : ftable.length < cap := by omega
          simp [packLoop, hr, ho, hm, hc]
    · simp only [packLoop, hr]
      exact ih _ _ _ _ i h1 h2

/-- C16 (growth of the file table in `pack`): starting from a block of 16 entries with
`ft_max = 10`, for every directory, every index at which `pack` writes a table entry is
below the number of entries the block has room for at that moment, and `pack` never stops
on a write outside the block. -/
theorem pack_table_in_bounds (dir : List DirEnt) :
    (∀ p ∈ tableWrites dir 0 10 16, p.1 < p.2) ∧
    (∀ (outOpens chdirOk : Bool) (i : Nat), pack outOpens chdirOk dir ≠ .fault i) := by
  refine ⟨tableWrites_lt dir 0 10 16 (by decide) (by decide), ?_⟩
  intro o c i
  cases o <;> cases c <;> simp only [pack, if_true, if_false] <;> try (intro h; cases h)
  exact packLoop_no_fault dir _ _ _ _ i (by simp) (by decide)


/-! ## The magic bytes -/

theorem drop_eq_of_drop {f g : List Byte} {k pos : Nat} (h : f.drop k = g.drop k)
    (hp : k ≤ pos) : f.drop pos = g.drop pos := by
  have e1 : pos = k + (pos - k) := by omega
  rw [e1, ← List.drop_drop, ← List.drop_drop, h]

theorem getD_eq_of_drop {f g : List Byte} {k j : Nat} (h : f.drop k = g.drop k)
    (hj : k ≤ j) : f.getD j 0 = g.getD j 0 := by
  have h1 := drop_eq_of_drop h hj
  have h2 : ∀ l : List Byte, l.getD j 0 = (l.drop j).getD 0 0 := by
    intro l
    simp [List.getD_eq_getElem?_getD]
  rw [h2 f, h2 g, h1]

theorem fread_congr (old : Nat → Byte) (n : Nat) {f g : List Byte} {k pos : Nat}
    (h : f.drop k = g.drop k) (hp : k ≤ pos) : fread old n f pos = fread old n g pos := by
  simp only [fread, drop_eq_of_drop h hp]

theorem fread_zero (old : Nat → Byte) (f : List Byte) (pos : Nat) : fread old 0 f pos = [] := by
  simp [fread]

/-- The header `dump` reads has the same key, count and table offset for two streams of
the same length that agree from offset `0x2B` on. -/
theorem dumpHeader_congr (env : Env) {f g : List Byte} (hlen : f.length = g.length)
    (h : f.drop 0x2B = g.drop 0x2B) :
    (dumpHeader env f).key = (dumpHeader env g).key ∧
    (dumpHeader env f).fcount = (dumpHeader env g).fcount ∧
    (dumpHeader env f).ft_pos = (dumpHeader env g).ft_pos := by
  have hb : ∀ j, 0x2B ≤ j → j < 0x34 →
      (fread env.oldHead 0x34 f 0).getD j 0 = (fread env.oldHead 0x34 g 0).getD j 0 := by
    intro j h1 h2
    rw [fread_getD _ _ _ _ _ h2, fread_getD _ _ _ _ _ h2, hlen]
    simp only [Nat.zero_add]
    rw [getD_eq_of_drop h h1]
  refine ⟨?_, ?_, ?_⟩
  · exact hb 0x2B (by omega) (by omega)
  · simp only [dumpHeader, decodeHeader, rd32]
    rw [hb 0x2C (by omega) (by omega), hb (0x2C + 1) (by omega) (by omega),
      hb (0x2C + 2) (by omega) (by omega), hb (0x2C + 3) (by omega) (by omega)]
  · simp only [dumpHeader, decodeHeader, rd32]
    rw [hb 0x30 (by omega) (by omega), hb (0x30 + 1) (by omega) (by omega),
      hb (0x30 + 2) (by omega) (by omega), hb (0x30 + 3) (by omega) (by omega)]

theorem dumpLoop_congr (env : Env) {f g : List Byte} (key : Byte)
    (h : f.drop 0x2B = g.drop 0x2B) (todo : List FT_ENTRY) :
    ∀ (fixed : List FT_ENTRY) (out : List (List Byte × List Byte)),
      (∀ e ∈ todo, 0x2B ≤ (fixEntry env.signedChar e).fpos ∨
        (fixEntry env.signedChar e).fsize = 0) →
      dumpLoop env f key fixed todo out = dumpLoop env g key fixed todo out := by
  induction todo with
  | nil => intro fixed out _; rfl
  | cons e todo ih =>
    intro fixed out hent
    have hbuf : fread (env.oldBuf fixed.length) (fixEntry env.signedChar e).fsize f
        (fixEntry env.signedChar e).fpos =
        fread (env.oldBuf fixed.length) (fixEntry env.signedChar e).fsize g
        (fixEntry env.signedChar e).fpos := by
      rcases hent e (List.mem_cons_self _ _) with h1 | h1
      · exact fread_congr _ _ h h1
      · rw [h1, fread_zero, fread_zero]
    simp only [dumpLoop, hbuf]
    split
    · split
      · rfl
      · exact ih _ _ (fun x hx => hent x (List.mem_cons_of_mem _ hx))
    · rfl

/-- C13, as amended (the magic is not validated): for every two archives of the same
length that differ only in their first `0x2B` bytes, and in which the file table and the
content of every entry lie at or after offset `0x2B` (an empty table and an empty content
lie nowhere), `dump` ends the same way and writes the same files, with the same names and
bytes. -/
theorem dump_ignores_magic (env : Env) (f g : List Byte)
    (hlen : f.length = g.length) (hrest : f.drop 0x2B = g.drop 0x2B)
    (htab : 0x2B ≤ (dumpHeader env f).ft_pos ∨ (dumpHeader env f).fcount = 0)
    (hent : ∀ e ∈ dumpTable env f, 0x2B ≤ (fixEntry env.signedChar e).fpos ∨
      (fixEntry env.signedChar e).fsize = 0) :
    dump env (some f) = dump env (some g) := by
  obtain ⟨hk, hc, hp⟩ := dumpHeader_congr env hlen hrest
  have ht : dumpTable env f = dumpTable env g := by
    simp only [dumpTable, ← hc, ← hp]
    rcases htab with h1 | h1
    · rw [fread_congr _ _ hrest h1]
    · rw [h1]; rfl
  simp only [dump, ← ht, ← hk]
  split
  · rfl
  · exact dumpLoop_congr env _ hrest _ _ _ hent

set_option maxRecDepth 100000 in
/-- Witness of the amended C13: `xorArchive` and the same archive with another magic. -/
theorem dump_ignores_magic_witness :
    xorArchive.length = otherMagicArchive.length ∧
    xorArchive.drop 0x2B = otherMagicArchive.drop 0x2B ∧
    xorArchive.take 0x2B ≠ otherMagicArchive.take 0x2B ∧
    (0x2B ≤ (dumpHeader quietEnv xorArchive).ft_pos ∨
      (dumpHeader quietEnv xorArchive).fcount = 0) ∧
    (∀ e ∈ dumpTable quietEnv xorArchive, 0x2B ≤ (fixEntry quietEnv.signedChar e).fpos ∨
      (fixEntry quietEnv.signedChar e).fsize = 0) ∧
    dump quietEnv (some xorArchive) = dump quietEnv (some otherMagicArchive) :=
  ⟨by decide, by decide, by decide, by decide, by decide,
    dump_ignores_magic quietEnv xorArchive otherMagicArchive (by decide) (by decide)
      (by decide) (by decide)⟩

set_option maxRecDepth 100000 in
/-- C13 as stated fails: `magicArchive 0x61` and `magicArchive 0x62` have the same length
and differ only in byte `8`, inside the magic field; their header places the table at
offset `8`, so the name of the one entry is read from the magic field, and `dump` creates
the file `a` for the first and the file `b` for the second. -/
theorem dump_magic_counterexample :
    (magicArchive 0x61).length = (magicArchive 0x62).length ∧
    (magicArchive 0x61).drop 0x2B = (magicArchive 0x62).drop 0x2B ∧
    (dumpHeader quietEnv (magicArchive 0x61)).ft_pos = 8 ∧
    dump quietEnv (some (magicArchive 0x61)) = ⟨.done, [(ascii "a", [])]⟩ ∧
    dump quietEnv (some (magicArchive 0x62)) = ⟨.done, [(ascii "b", [])]⟩ ∧
    dump quietEnv (some (magicArchive 0x61)) ≠ dump quietEnv (some (magicArchive 0x62)) := by
  decide


/-! ## One round of the loop of `dump` -/

set_option maxRecDepth 100000 in
/-- A name field without a zero byte: the 39 bytes of the field of the one entry are all
`x`, `encofs` is `1`, and the stored position `0x79` resolves to `0x78`, the letter `x`
again, followed by three zero bytes.  The name `dump` opens runs on through `encofs` and
the first byte of `fpos`: 39 times `x`, the byte `01`, and `x`. -/
theorem dump_unterminated_name_example :
    nameAt (fixEntry true ⟨List.replicate 0x27 0x78, 1, 0x79, 1⟩) [] [] =
      List.replicate 0x27 0x78 ++ [0x01, 0x78] ∧
    dump quietEnv (some (encodeHeader ⟨dummyHeader.magic, 0, 1, 0x34⟩ ++
        encodeEntry ⟨List.replicate 0x27 0x78, 1, 0x79, 1⟩)) =
      ⟨.done, [(List.replicate 0x27 0x78 ++ [0x01, 0x78], [])]⟩ := by
  decide


/-! ## The command line -/

theorem pack_returns (o c : Bool) (dir : List DirEnt) : packReturns (pack o c dir) = true := by
  cases h : pack o c dir with
  | fault i =>
    exfalso
    revert h
    cases o <;> cases c <;> simp only [pack, if_true, if_false] <;> try (intro h; cases h)
    exact packLoop_no_fault dir _ _ _ _ i (by simp) (by decide)
  | ok a => rfl
  | archiveOpenError => rfl
  | directoryError => rfl
  | fileOpenError written => rfl

/-- The dispatch of `main`: with fewer than 3 arguments after the program name, the single
argument `-h` included, it prints the usage text, runs neither `dump` nor `pack` and
returns `0`; with 3 or more arguments it runs `dump` (on the second and third argument)
exactly when the first argument is `dump`, `pack` (on the second and third argument)
exactly when it is `pack`, and otherwise only reports the first argument as an invalid mode
and returns `0`.  It returns `0` whenever the function it runs returns, and `pack` always
does. -/
theorem main_dispatch (w : World) (argv : List (List Byte)) :
    (argv.length < 4 → main w argv = ⟨some 0, .usage⟩) ∧
    (∀ prog : List Byte, argv = [prog, ascii "-h"] → main w argv = ⟨some 0, .usage⟩) ∧
    (4 ≤ argv.length →
      ((∃ a b r, (main w argv).action = .ranDump a b r) ↔ argv.getD 1 [] = ascii "dump") ∧
      (argv.getD 1 [] = ascii "dump" →
        (main w argv).action = .ranDump (argv.getD 2 []) (argv.getD 3 [])
          (dump (w.dumpEnv (argv.getD 3 [])) (w.archive (argv.getD 2 []))) ∧
        ((main w argv).status = some 0 ↔
          dumpReturns (dump (w.dumpEnv (argv.getD 3 [])) (w.archive (argv.getD 2 []))) = true)) ∧
      ((∃ a b r, (main w argv).action = .ranPack a b r) ↔ argv.getD 1 [] = ascii "pack") ∧
      (argv.getD 1 [] = ascii "pack" →
        main w argv = ⟨some 0, .ranPack (argv.getD 2 []) (argv.getD 3 [])
          (pack (w.outOpens (argv.getD 3 [])) (w.chdirOk (argv.getD 2 []))
            (w.entries (argv.getD 2 [])))⟩) ∧
      (argv.getD 1 [] ≠ ascii "dump" → argv.getD 1 [] ≠ ascii "pack" →
        main w argv = ⟨some 0, .invalidMode (argv.getD 1 [])⟩)) := by
  have hne : ascii "dump" ≠ ascii "pack" := by decide
  refine ⟨?_, ?_, ?_⟩
  · intro h
    simp [main, h]
  · intro prog h
    subst h
    simp [main]
  · intro h
    have hmain : main w argv =
        if argv.getD 1 [] = ascii "dump" then
          ⟨if dumpReturns (dump (w.dumpEnv (argv.getD 3 [])) (w.archive (argv.getD 2 [])))
              then some 0 else none,
            .ranDump (argv.getD 2 []) (argv.getD 3 [])
              (dump (w.dumpEnv (argv.getD 3 [])) (w.archive (argv.getD 2 [])))⟩
        else if argv.getD 1 [] = ascii "pack" then
          ⟨if packReturns (pack (w.outOpens (argv.getD 3 [])) (w.chdirOk (argv.getD 2 []))
              (w.entries (argv.getD 2 []))) then some 0 else none,
            .ranPack (argv.getD 2 []) (argv.getD 3 [])
              (pack (w.outOpens (argv.getD 3 [])) (w.chdirOk (argv.getD 2 []))
                (w.entries (argv.getD 2 [])))⟩
        else ⟨some 0, .invalidMode (argv.getD 1 [])⟩ := by
      have h4 : ¬ argv.length < 4 := by omega
      have h2 : ¬ argv.length = 2 := by omega
      have hb : (argv.length == 2) = false := by simpa using h2
      simp only [main, streq, h4, hb, decide_False, beq_iff_eq, Bool.false_and, Bool.or_self,
        Bool.false_eq_true, if_false]
    rw [hmain]
    by_cases hd : argv.getD 1 [] = ascii "dump"
    · have hp : argv.getD 1 [] ≠ ascii "pack" := fun hp => hne (hd.symm.trans hp)
      rw [if_pos hd]
      refine ⟨⟨fun _ => hd, fun _ => ⟨_, _, _, rfl⟩⟩, fun _ => ⟨rfl, ?_⟩,
        ⟨fun ⟨a, b, r, hab⟩ => ?_, fun hq => absurd hq hp⟩, fun hq => absurd hq hp,
        fun hq => absurd hd hq⟩
      · cases hr : dumpReturns (dump (w.dumpEnv (argv.getD 3 [])) (w.archive (argv.getD 2 [])))
          <;> simp
      · cases hab
    · rw [if_neg hd]
      by_cases hp : argv.getD 1 [] = ascii "pack"
      · rw [if_pos hp, pack_returns]
        refine ⟨⟨fun ⟨a, b, r, hab⟩ => ?_, fun hq => absurd hq hd⟩, fun hq => absurd hq hd,
          ⟨fun _ => hp, fun _ => ⟨_, _, _, rfl⟩⟩, fun _ => rfl, fun _ hq => absurd hp hq⟩
        cases hab
      · rw [if_neg hp]
        refine ⟨⟨fun ⟨a, b, r, hab⟩ => ?_, fun hq => absurd hq hd⟩, fun hq => absurd hq hd,
          ⟨fun ⟨a, b, r, hab⟩ => ?_, fun hq => absurd hq hp⟩, fun hq => absurd hq hp,
          fun _ _ => rfl⟩
        · cases hab
        · cases hab

set_option maxRecDepth 100000 in
/-- The run of `dump` on `tornArchive`.  The buffer of entry `0` has one byte, in a block of
24; every one of the 40 table entries has a size above its index, so line 97 makes 40
rounds with key `0xFF` and changes the 16 bytes that follow the block.  The run ends there:
the file `f00` has been created and holds no byte. -/
theorem dump_torn_example :
    (dumpHeader quietEnv tornArchive).key = 0xFF ∧
    (dumpTable quietEnv tornArchive).length = 40 ∧
    (bufAt quietEnv tornArchive (dumpTable quietEnv tornArchive) 0).length = 1 ∧
    quietEnv.slack 1 = 23 ∧
    (xorRun 0xFF (quietEnv.pastSize 0) (tableAt quietEnv (dumpTable quietEnv tornArchive) 0) 0
      (bufAt quietEnv tornArchive (dumpTable quietEnv tornArchive) 0)).2 = 40 ∧
    overruns quietEnv tornArchive 0xFF (dumpTable quietEnv tornArchive) 0 = true ∧
    quietEnv.canOpen (entryName quietEnv (dumpTable quietEnv tornArchive) 1) = false ∧
    dump quietEnv (some tornArchive) = ⟨.fault 0 (.bufIndex 24), [(ascii "f00", [])]⟩ := by
  decide

set_option maxRecDepth 100000 in
/-- C14 (exit status), evaluated on the command line `cnvltool dump in.pak out` where
`in.pak` holds `tornArchive`: `main` runs `dump`, line 97 of `dump` changes bytes beyond the
block of `buf` while the first entry is extracted, and the process is ended inside `dump`;
`main` does not return, so the status is not `0`. -/
theorem main_killed_in_dump :
    main tornWorld [ascii "cnvltool", ascii "dump", ascii "in.pak", ascii "out"] =
      ⟨none, .ranDump (ascii "in.pak") (ascii "out")
        ⟨.fault 0 (.bufIndex 24), [(ascii "f00", [])]⟩⟩ ∧
    (main tornWorld [ascii "cnvltool", ascii "dump", ascii "in.pak", ascii "out"]).status
      ≠ some 0 := by
  decide

set_option maxRecDepth 100000 in
/-- Runs of `main`: no argument, `-h` alone, two arguments after the program name, the two
modes with three and with four arguments, and an unknown mode. -/
theorem main_examples :
    main tornWorld [] = ⟨some 0, .usage⟩ ∧
    main tornWorld [ascii "cnvltool", ascii "-h"] = ⟨some 0, .usage⟩ ∧
    main tornWorld [ascii "cnvltool", ascii "dump", ascii "in.pak"] = ⟨some 0, .usage⟩ ∧
    main tornWorld [ascii "cnvltool", ascii "dump", ascii "none.pak", ascii "out"]
      = ⟨some 0, .ranDump (ascii "none.pak") (ascii "out") ⟨.archiveOpenError, []⟩⟩ ∧
    main tornWorld [ascii "cnvltool", ascii "pack", ascii "dir", ascii "out.pak", ascii "more"]
      = ⟨some 0, .ranPack (ascii "dir") (ascii "out.pak")
          (.ok (encodeHeader ⟨dummyHeader.magic, 0, 0, 0x34⟩))⟩ ∧
    main tornWorld [ascii "cnvltool", ascii "-h", ascii "x", ascii "y"]
      = ⟨some 0, .invalidMode (ascii "-h")⟩ ∧
    main tornWorld [ascii "cnvltool", ascii "Dump", ascii "in.pak", ascii "out"]
      = ⟨some 0, .invalidMode (ascii "Dump")⟩ := by
  decide

/-! ## A sample run of the table growth -/

/-- The table growth over 21 regular files: entries `0 .. 8` are written into the first
block of 16 entries, entries `9 .. 18` into a block of 20, entries `19` and `20` into a
block of 40. -/
theorem tableWrites_example :
    tableWrites (List.replicate 21 (regFile [] [])) 0 10 16 =
      [(0, 16), (1, 16), (2, 16), (3, 16), (4, 16), (5, 16), (6, 16), (7, 16), (8, 16),
       (9, 20), (10, 20), (11, 20), (12, 20), (13, 20), (14, 20), (15, 20), (16, 20),
       (17, 20), (18, 20), (19, 40), (20, 40)] := by
  decide

end Cnvltool
